import Mathlib

/-!
# Goomairu-Drive: chunk store, health tracker, placement, replication,
reconciliation and download

A shallow embedding of `Back_GDrive_DFS/main.go`.

* Process environment variables are a function `Environ`; `os.Getenv` of an
  unset variable is the empty string.
* Paths are Go strings; `filepath.Base`, `filepath.Clean` and `filepath.Join`
  are the Unix versions of Go's `path/filepath`.
* The chunk store is a map from directory path to the chunk files in that
  directory.  A chunk file `{i}.chunk` is keyed by its index `i`
  (`fmt.Sprintf("%d.chunk", i)` is injective and yields a plain file name, so
  `filepath.Join(dir, name)` is the entry `name` of `dir`).
* Outcomes of system calls and HTTP requests that the code cannot control are
  oracle parameters (`Faults`, probe results, HEAD and push outcomes, `SyncEnv`).
  What a request changes on another node is not computed: the request and its
  outcome are recorded in the list of actions a function returns.
* Go `int`/`int64` counters are `Nat`: every counter below is bounded by the
  length of a byte slice held in memory, far below `2^63`.
-/

namespace GDrive

/-! ## Constants (main.go 41-46) -/

/-- Constant `ChunkSize = 1 * 1024 * 1024`. -/
def ChunkSize : Nat := 1 * 1024 * 1024

/-- Constant `ReplicationFactor = 2`. -/
def ReplicationFactor : Nat := 2

/-- Constant `ReplicateMaxRetries = 3`. -/
def ReplicateMaxRetries : Nat := 3

/-- Constant `ReplicateRetryDelay = 2 * time.Second`, in nanoseconds. -/
def ReplicateRetryDelay : Int := 2 * 1000000000

/-- Upload body limit of the HTTP server (`BodyLimit: 100 * 1024 * 1024`, main.go 912). -/
def BodyLimit : Nat := 100 * 1024 * 1024

/-! ## Environment and paths (main.go 134-166) -/

/-- Process environment: `os.Getenv key`, the empty string when unset. -/
abbrev Environ := String → String

/-- Function `getEnv(key, def)` (main.go 134-139). -/
def getEnv (env : Environ) (key dflt : String) : String :=
  if env key ≠ "" then env key else dflt

/-- Function `storageRoot()` (main.go 141-143). -/
def storageRoot (env : Environ) : String :=
  getEnv env "STORAGE_ROOT" "/app/storage"

/-- Components of a path between `/` separators (empty components kept). -/
def splitSlash : List Char → List (List Char)
  | [] => [[]]
  | c :: cs =>
    if c = '/' then [] :: splitSlash cs
    else
      match splitSlash cs with
      | [] => [[c]]
      | x :: xs => (c :: x) :: xs

/-- One step of `filepath.Clean` on the stack of kept components (top first):
empty and `.` components are dropped, `..` removes the component before it,
is dropped at the root, and is kept at the start of a relative path. -/
def cleanStep (rooted : Bool) (stack : List (List Char)) (c : List Char) : List (List Char) :=
  if c = [] ∨ c = ['.'] then stack
  else if c = ['.', '.'] then
    match stack with
    | [] => if rooted then [] else [c]
    | top :: rest => if top = ['.', '.'] then c :: stack else rest
  else c :: stack

/-- Components joined by single `/` separators (`strings.Join(_, "/")`). -/
def joinSlash : List (List Char) → List Char
  | [] => []
  | [x] => x
  | x :: y :: rest => x ++ '/' :: joinSlash (y :: rest)

/-- Go `filepath.Clean` (Unix) on the characters of a path. -/
def cleanChars (p : List Char) : List Char :=
  if p = [] then ['.']
  else
    let rooted := p.head? = some '/'
    let body := joinSlash ((splitSlash p).foldl (cleanStep rooted) []).reverse
    let out := if rooted then '/' :: body else body
    if out = [] then ['.'] else out

/-- Go `filepath.Clean` (Unix). -/
def filepathClean (p : String) : String := String.mk (cleanChars p.data)

/-- Go `filepath.Base` (Unix) on the characters of a path: `.` for the empty
path, trailing slashes stripped, then the text after the last slash, `/` when
nothing is left. -/
def baseChars (p : List Char) : List Char :=
  if p = [] then ['.']
  else
    let p1 := (p.reverse.dropWhile (fun c => c = '/')).reverse
    let last := (p1.reverse.takeWhile (fun c => c ≠ '/')).reverse
    if last = [] then ['/'] else last

/-- Go `filepath.Base` (Unix). -/
def filepathBase (p : String) : String := String.mk (baseChars p.data)

/-- Go `filepath.Join` (Unix): leading empty elements are ignored, the rest is
joined with `/` and cleaned; the empty string when every element is empty. -/
def filepathJoin (elem : List String) : String :=
  match elem.dropWhile (fun e => e = "") with
  | [] => ""
  | rest => String.mk (cleanChars (joinSlash (rest.map String.data)))

/-- Path `p` is the directory `dir` or lies below it. -/
def isUnder (dir p : String) : Bool :=
  p == dir || (dir.data ++ ['/']).isPrefixOf p.data

/-- Path `p` is an entry directly inside directory `dir`: `dir/name` for a
single component `name` that is neither `.` nor `..`. -/
def isDirectChild (dir p : String) : Bool :=
  match (dir.data ++ ['/']).isPrefixOf p.data with
  | false => false
  | true =>
    let name := p.data.drop (dir.data.length + 1)
    name ≠ [] && !name.contains '/' && name ≠ ['.'] && name ≠ ['.', '.']

/-! ## Chunk store (main.go 183-244, 737-740) -/

/-- One byte of file content. -/
abbrev Byte := Fin 256

/-- Chunk files of one directory: `(i, content)` is the regular file `{i}.chunk`. -/
abbrev Dir := List (Nat × List Byte)

/-- Chunk store of the machine: the chunk files found in the directory at each path
(no entries for a directory that is empty or does not exist). -/
abbrev Store := String → Dir

/-- Errors returned by the chunk store. -/
inductive Err where
  | ioError
  | noChunks
  deriving DecidableEq, Repr

/-- Failures injected by the operating system and by the sink, per chunk index:
`mkdir` fails `os.MkdirAll`; `write i` fails `os.WriteFile` of chunk `i` (at
open, so the directory stays as it was); `stat i` makes `os.Stat` of chunk `i`
report an error other than not-exist; `read i` fails `os.ReadFile` of chunk
`i`; `sink i` fails `w.Write` of chunk `i` (nothing appended). -/
structure Faults where
  mkdir : Bool
  write : Nat → Bool
  stat : Nat → Bool
  read : Nat → Bool
  sink : Nat → Bool

/-- No injected failure. -/
def noFaults : Faults :=
  { mkdir := false, write := fun _ => false, stat := fun _ => false,
    read := fun _ => false, sink := fun _ => false }

/-- Content of `{i}.chunk` in a directory, if the file exists. -/
def chunkAt (d : Dir) (i : Nat) : Option (List Byte) := d.lookup i

/-- Successful `os.WriteFile(dir/{i}.chunk, b)`: creates or replaces that file. -/
def writeFile (d : Dir) (i : Nat) (b : List Byte) : Dir :=
  (i, b) :: d.filter (fun e => e.1 != i)

/-- Go slice expression `data[lo:hi]`. -/
def slice (data : List Byte) (lo hi : Nat) : List Byte :=
  (data.drop lo).take (hi - lo)

/-- The `for offset := 0; offset < len(data); offset += ChunkSize` loop of
`writeChunks` (main.go 190-200) from the state `(offset, count)`, on the chunk
files of the target directory.  Returns the directory, `count` and the error;
`none` when the fuel runs out before the loop ends. -/
def writeLoop (f : Faults) (data : List Byte) :
    Nat → Nat → Nat → Dir → Option (Dir × Nat × Option Err)
  | fuel, offset, count, d =>
    if offset < data.length then
      match fuel with
      | 0 => none
      | fuel + 1 =>
        let end_ := if offset + ChunkSize > data.length then data.length else offset + ChunkSize
        if f.write count then some (d, count, some Err.ioError)
        else
          writeLoop f data fuel (offset + ChunkSize) (count + 1)
            (writeFile d count (slice data offset end_))
    else some (d, count, none)

/-- Result of `writeChunks`: the store afterwards and the returned `(int, error)`. -/
structure WriteResult where
  store : Store
  count : Nat
  err : Option Err

/-- The directory `writeChunks` creates and writes into (main.go 184-185). -/
def writeChunksDir (env : Environ) (userID filename : String) : String :=
  let filename := filepathBase filename
  filepathJoin [storageRoot env, getEnv env "NODE_ID" "s1", userID, filename]

/-- Function `writeChunks(userID, filename, data)` (main.go 183-202). -/
def writeChunks (env : Environ) (f : Faults) (st : Store) (userID filename : String)
    (data : List Byte) : Option WriteResult :=
  let dir := writeChunksDir env userID filename
  if f.mkdir then some { store := st, count := 0, err := some Err.ioError }
  else
    (writeLoop f data data.length 0 0 (st dir)).map fun r =>
      { store := Function.update st dir r.1, count := r.2.1, err := r.2.2 }

/-- The `for i := 0; ; i++` loop of `reconstructToWriter` (main.go 209-224) from
the state `(i, total)` with `sink` the bytes written to `w` so far.  Returns the
sink, `total`, the error of an early `return total, err`, or no error after
`break`; `none` when the fuel runs out before the loop ends. -/
def reconstructLoop (f : Faults) (d : Dir) :
    Nat → Nat → Nat → List Byte → Option (List Byte × Nat × Option Err)
  | 0, _, _, _ => none
  | fuel + 1, i, total, sink =>
    if !f.stat i && (chunkAt d i).isNone then some (sink, total, none)
    else if f.read i then some (sink, total, some Err.ioError)
    else
      match chunkAt d i with
      | none => some (sink, total, some Err.ioError)
      | some b =>
        if f.sink i then some (sink, total, some Err.ioError)
        else reconstructLoop f d fuel (i + 1) (total + b.length) (sink ++ b)

/-- Result of `reconstructToWriter`: everything written to `w` and the returned
`(int64, error)`. -/
structure ReadResult where
  sink : List Byte
  total : Nat
  err : Option Err
  deriving DecidableEq

/-- The directory `reconstructToWriter` reads (main.go 205). -/
def reconstructDir (env : Environ) (nodeID userID filename : String) : String :=
  filepathJoin [storageRoot env, nodeID, userID, filename]

/-- Function `reconstructToWriter(nodeID, userID, filename, w)` (main.go 204-230);
`sink` is what `w` holds before the call. -/
def reconstructToWriter (env : Environ) (f : Faults) (st : Store)
    (nodeID userID filename : String) (sink : List Byte) : Option ReadResult :=
  let d := st (reconstructDir env nodeID userID filename)
  (reconstructLoop f d (d.length + 1) 0 0 sink).map fun r =>
    match r.2.2 with
    | some e => { sink := r.1, total := r.2.1, err := some e }
    | none =>
      if r.2.1 = 0 then { sink := r.1, total := 0, err := some Err.noChunks }
      else { sink := r.1, total := r.2.1, err := none }

/-- The directory `hasAnyChunk` lists (main.go 233). -/
def hasAnyChunkDir (env : Environ) (nodeID userID filename : String) : String :=
  filepathJoin [storageRoot env, nodeID, userID, filename]

/-- Function `hasAnyChunk(nodeID, userID, filename)` (main.go 232-244): some
regular `*.chunk` entry exists in the directory. -/
def hasAnyChunk (env : Environ) (st : Store) (nodeID userID filename : String) : Bool :=
  !(st (hasAnyChunkDir env nodeID userID filename)).isEmpty

/-- The directory `deleteFile` removes (main.go 738). -/
def deleteFileDir (env : Environ) (nodeID userID filename : String) : String :=
  filepathJoin [storageRoot env, nodeID, userID, filename]

/-- Function `deleteFile(nodeID, userID, filename)` (main.go 737-740) when
`os.RemoveAll` succeeds: the directory and everything below it is gone. -/
def deleteFile (env : Environ) (st : Store) (nodeID userID filename : String) : Store :=
  fun p => if isUnder (deleteFileDir env nodeID userID filename) p then [] else st p

/-! ## Peers (main.go 145-162) -/

/-- Function `peersList()` (main.go 145-157): the static peer table. -/
def peersList (env : Environ) : List String :=
  let nodeID := getEnv env "NODE_ID" "s1"
  if nodeID = "s1" then ["http://s2:8080", "http://s3:8080"]
  else if nodeID = "s2" then ["http://s1:8080", "http://s3:8080"]
  else if nodeID = "s3" then ["http://s1:8080", "http://s2:8080"]
  else []

/-- Function `selfURL()` (main.go 159-162). -/
def selfURL (env : Environ) : String :=
  "http://" ++ getEnv env "NODE_ID" "s1" ++ ":8080"

/-! ## Health check and node selection (main.go 248-348) -/

/-- Outcome of `client.Get(nodeURL + "/health")`: whether `err != nil`, and the
status code of the response otherwise. -/
structure ProbeResult where
  failed : Bool
  statusCode : Nat

/-- Variable `lastHealthy`: peer URL to the time of its last successful probe
(nanoseconds on the process clock). -/
abbrev HealthMap := String → Option Int

/-- Duration `1 * time.Minute` in nanoseconds. -/
def minute : Int := 60 * 1000000000

/-- The probe answered with status 200 (`err == nil && resp.StatusCode == 200`). -/
def ProbeResult.ok (p : ProbeResult) : Bool := !p.failed && p.statusCode == 200

/-- Function `isNodeHealthy(nodeURL)` (main.go 250-264), with the probe outcome
and the clock reading `now` of the one `time.Now()`/`time.Since` call made;
returns the verdict and the map afterwards. -/
def isNodeHealthy (lastHealthy : HealthMap) (probe : ProbeResult) (now : Int)
    (nodeURL : String) : Bool × HealthMap :=
  if probe.ok then (true, Function.update lastHealthy nodeURL (some now))
  else
    match lastHealthy nodeURL with
    | some t => if now - t < minute then (true, lastHealthy) else (false, lastHealthy)
    | none => (false, lastHealthy)

/-- What the network and the clock answer while peers are probed: the outcome of
the probe of each URL and the clock reading taken during it. -/
structure HealthEnv where
  probe : String → ProbeResult
  clock : String → Int

/-- The `for _, peer := range peersList()` loop of `getHealthyNodes` (main.go 268-272). -/
def getHealthyFrom (h : HealthEnv) : List String → HealthMap → List String × HealthMap
  | [], m => ([], m)
  | peer :: rest, m =>
    let r := isNodeHealthy m (h.probe peer) (h.clock peer) peer
    let rs := getHealthyFrom h rest r.2
    (if r.1 then peer :: rs.1 else rs.1, rs.2)

/-- Function `getHealthyNodes()` (main.go 266-274). -/
def getHealthyNodes (env : Environ) (h : HealthEnv) (lastHealthy : HealthMap) :
    List String × HealthMap :=
  getHealthyFrom h (peersList env) lastHealthy

/-- One entry of a `/files` listing. -/
structure FileEntry where
  name : String
  userID : String

/-- Function `getFileCount(nodeURL, userID)` (main.go 276-317).  `ls path` is the
result of `os.ReadDir(path)` as `(name, isDir)` pairs, `none` on error; `files
url` is the decoded body of `GET url/files`, `none` when the request or the
decoding fails. -/
def getFileCount (env : Environ) (st : Store) (ls : String → Option (List (String × Bool)))
    (files : String → Option (List FileEntry)) (nodeURL userID : String) : Nat :=
  if nodeURL = selfURL env then
    let nodeID := getEnv env "NODE_ID" "s1"
    match ls (filepathJoin [storageRoot env, nodeID, userID]) with
    | none => 0
    | some entries =>
      (entries.filter fun e => e.2 && hasAnyChunk env st nodeID userID e.1).length
  else
    match files nodeURL with
    | none => 0
    | some fs => (fs.filter fun f => f.userID = userID).length

/-- The `for _, n := range nodes[1:]` loop of `chooseTargetNode` (main.go 340-345). -/
def minNode : String × Nat → List (String × Nat) → String × Nat
  | m, [] => m
  | m, n :: rest => if n.2 < m.2 then minNode n rest else minNode m rest

/-- Function `chooseTargetNode(userID)` (main.go 319-348).  `healthyNodes` is the
list returned by the call `getHealthyNodes()` and `fileCount node` the value of
`getFileCount(node, userID)`. -/
def chooseTargetNode (env : Environ) (healthyNodes : List String) (fileCount : String → Nat) :
    String :=
  let allNodes := healthyNodes ++ [selfURL env]
  if allNodes.length = 0 then selfURL env
  else
    let nodes := allNodes.map fun node => (node, fileCount node)
    match nodes with
    | [] => selfURL env
    | n0 :: rest => (minNode n0 rest).1

/-! ## Replication (main.go 352-418) -/

/-- Network actions of the replicator, in the order they happen. -/
inductive Event where
  | head (peer : String)
  | push (peer : String) (attempt : Nat)
  | sleep (d : Int)
  deriving DecidableEq, Repr

/-- The peer an action contacts. -/
def Event.peer? : Event → Option String
  | Event.head p => some p
  | Event.push p _ => some p
  | Event.sleep _ => none

/-- The `for attempt := 1; attempt <= ReplicateMaxRetries; attempt++` loop
(main.go 391-400) over the attempts still to make; `push peer attempt` tells
whether `postMultipart` returns no error on that attempt.  Returns `success`
and the actions taken. -/
def pushAttempts (push : String → Nat → Bool) (peer : String) : List Nat → Bool × List Event
  | [] => (false, [])
  | attempt :: rest =>
    if push peer attempt then (true, [Event.push peer attempt])
    else
      let r := pushAttempts push peer rest
      (r.1, Event.push peer attempt :: Event.sleep (ReplicateRetryDelay * attempt) :: r.2)

/-- The `for _, peer := range healthy` loop of `replicateToPeers` (main.go
377-412) from the state `(storedNodes, count)`, with the actions taken so far. -/
def replicateLoop (self : String) (head : String → Bool) (push : String → Nat → Bool) :
    List String → List String → Nat → List Event → List String × Nat × List Event
  | [], stored, count, tr => (stored, count, tr)
  | peer :: rest, stored, count, tr =>
    if peer = self then replicateLoop self head push rest stored count tr
    else if head peer then
      if count + 1 ≥ ReplicationFactor then (stored ++ [peer], count + 1, tr ++ [Event.head peer])
      else replicateLoop self head push rest (stored ++ [peer]) (count + 1) (tr ++ [Event.head peer])
    else
      let r := pushAttempts push peer (List.range' 1 ReplicateMaxRetries)
      let tr1 := tr ++ Event.head peer :: r.2
      let stored1 := if r.1 then stored ++ [peer] else stored
      let count1 := if r.1 then count + 1 else count
      if count1 ≥ ReplicationFactor then (stored1, count1, tr1)
      else replicateLoop self head push rest stored1 count1 tr1

/-- Function `replicateToPeers(userID, filename, data)` (main.go 372-418).
`healthy` is the list returned by the call `getHealthyNodes()`, `head peer` the
value of `hasFileOnPeer(userID, peer, filename)`.  Returns `storedNodes` and
the actions taken. -/
def replicateToPeers (env : Environ) (healthy : List String) (head : String → Bool)
    (push : String → Nat → Bool) : List String × List Event :=
  let r := replicateLoop (selfURL env) head push healthy [selfURL env] 1 []
  (r.1, r.2.2)

/-! ## Reference notions used in the statements -/

/-- Chunk `j` of `data`: the window `data[offset:end]` that the loop body of
`writeChunks` computes at `offset = j * ChunkSize`. -/
def chunkOf (data : List Byte) (j : Nat) : List Byte :=
  slice data (j * ChunkSize)
    (if j * ChunkSize + ChunkSize > data.length then data.length else j * ChunkSize + ChunkSize)

/-- Number of chunks of a payload of `len` bytes: `⌈len / ChunkSize⌉`. -/
def chunkCount (len : Nat) : Nat := (len + ChunkSize - 1) / ChunkSize

/-- Concatenation of the chunk files `0 .. m-1` of a directory, in index order. -/
def catChunks (d : Dir) (m : Nat) : List Byte :=
  ((List.range m).map (fun j => (chunkAt d j).getD [])).flatten

/-- Peer on which the replicator gains a holder: HEAD reports the file present, or
one of the attempts `1 .. ReplicateMaxRetries` to push succeeds. -/
def accepts (head : String → Bool) (push : String → Nat → Bool) (p : String) : Bool :=
  head p || (List.range' 1 ReplicateMaxRetries).any (fun k => push p k)

/-! ## Concrete scenarios -/

/-- No environment variable set: node `s1`, storage root `/app/storage`. -/
def env0 : Environ := fun _ => ""

/-- Store without any chunk file. -/
def emptyStore : Store := fun _ => []

/-- The write of chunk `k` fails; nothing else does. -/
def failAt (k : Nat) : Faults :=
  { mkdir := false, write := fun i => i == k, stat := fun _ => false,
    read := fun _ => false, sink := fun _ => false }

/-- Store of node `s1` in which user `victim` holds `f.txt` (one chunk). -/
def victimStore : Store :=
  fun p => if p = "/app/storage/s1/victim/f.txt" then [(0, [7, 8])] else []

/-- Health map before any probe. -/
def hmap0 : HealthMap := fun _ => none

/-- Every probe answers 200. -/
def allUp : HealthEnv := { probe := fun _ => ⟨false, 200⟩, clock := fun _ => 0 }

/-- Scenario S2, local disk of `s1`: user `u1` holds five files. -/
def s2Store : Store :=
  fun p =>
    if p = "/app/storage/s1/u1/f1" ∨ p = "/app/storage/s1/u1/f2" ∨ p = "/app/storage/s1/u1/f3"
        ∨ p = "/app/storage/s1/u1/f4" ∨ p = "/app/storage/s1/u1/f5" then [(0, [1])]
    else []

/-- Scenario S2, directory listing of `/app/storage/s1/u1`. -/
def s2Ls : String → Option (List (String × Bool)) :=
  fun p =>
    if p = "/app/storage/s1/u1" then
      some [("f1", true), ("f2", true), ("f3", true), ("f4", true), ("f5", true)]
    else none

/-- Scenario S2, `/files` listings: `s2` holds nothing, `s3` two files of `u1`. -/
def s2Files : String → Option (List FileEntry) :=
  fun url =>
    if url = "http://s2:8080" then some []
    else if url = "http://s3:8080" then some [⟨"x", "u1"⟩, ⟨"y", "u1"⟩, ⟨"z", "u2"⟩]
    else none

/-! ## Replicator runs in succession -/

/-- Number of successful transfers to peer `p` among the actions `tr`: pushes
`Event.push p k` whose attempt `k` succeeds. -/
def transfers (push : String → Nat → Bool) (tr : List Event) (p : String) : Nat :=
  (tr.filter fun e =>
    match e with
    | Event.push q k => decide (q = p) && push q k
    | _ => false).length

/-- HEAD outcome after a run with actions `tr`: the peer held the file before, or
a push to it succeeded during the run. -/
def headAfter (head : String → Bool) (push : String → Nat → Bool) (tr : List Event)
    (p : String) : Bool :=
  head p || decide (0 < transfers push tr p)

/-- Total time slept among the actions `tr`, in nanoseconds. -/
def totalSleep : List Event → Int
  | [] => 0
  | Event.sleep d :: rest => d + totalSleep rest
  | _ :: rest => totalSleep rest

/-! ## Metadata directory (main.go 76-107, 782-796) -/

/-- One document of the Firestore collection `files` (the fields the code reads). -/
structure MetaRecord where
  fileName : String
  userId : String
  nodeId : List String
  deriving DecidableEq

/-- Function `getUserFilesFromFirebase(ctx, userID)` (main.go 782-796): the
documents whose `userId` equals `userID`.  `db` is the content of the
collection, `none` when the iterator reports an error. -/
def getUserFilesFromFirebase (db : Option (List MetaRecord)) (userID : String) :
    Option (List MetaRecord) :=
  db.map fun docs => docs.filter fun d => d.userId = userID

/-- Function `getFileMetadataFromFirebase(userID, filename)` (main.go 76-99): the
first document with that `userId` and `fileName`, `none` for the error return. -/
def getFileMetadataFromFirebase (db : Option (List MetaRecord)) (userID filename : String) :
    Option MetaRecord :=
  db.bind fun docs => docs.find? fun d => d.userId = userID ∧ d.fileName = filename

/-! ## Reconciler (main.go 532-733) -/

/-- Result of `client.Do(req)`: a transport error, or a response with its status code. -/
inductive HttpResult where
  | transportError
  | status (code : Nat)
  deriving DecidableEq, Repr

/-- Actions of one Reconciler pass that touch a chunk store: the GET of the
source, a push to `target/store-local` with its outcome, a DELETE sent to
`node/api/files/filename?user_id=user` with its outcome, and the removal of a
local file directory. -/
inductive SyncEvent where
  | download (source user filename : String)
  | push (target user filename : String) (ok : Bool)
  | deleteRequest (node filename user : String) (result : HttpResult)
  | removeLocal (user filename : String)
  deriving DecidableEq, Repr

/-- The node on which an action removes a copy or asks for its removal, seen
from the node `self` that runs the pass. -/
def SyncEvent.deleteTarget (self : String) : SyncEvent → Option String
  | SyncEvent.removeLocal _ _ => some self
  | SyncEvent.deleteRequest n _ _ _ => some n
  | _ => none

/-- Function `contains(arr, s)` (main.go 696-703). -/
def contains : List String → String → Bool
  | [], _ => false
  | v :: rest, s => if v = s then true else contains rest s

/-- Go `sort.Strings` comparison, on the characters: lexicographic order
(code point order, which is the byte order of the UTF-8 encodings). -/
def leChars : List Char → List Char → Bool
  | [], _ => true
  | _ :: _, [] => false
  | a :: as, b :: bs =>
    if a.toNat < b.toNat then true
    else if b.toNat < a.toNat then false
    else leChars as bs

/-- Go string comparison `a <= b`. -/
def strLe (a b : String) : Bool := leChars a.data b.data

/-- Go `sort.Strings`: the list in increasing lexicographic order. -/
def sortStrings (l : List String) : List String :=
  l.insertionSort (fun a b => strLe a b = true)

/-- The inventory entry `peerFiles[filename][userID]` built by the loop of
`syncMissingFiles` (main.go 605-626): nodes are asked in the order `allNodes`,
and a node is appended once per entry of its `/files` listing with that name
and user; `files node` is the decoded listing, `none` when the request fails. -/
def gatherHolders (allNodes : List String) (files : String → Option (List FileEntry))
    (filename userID : String) : List String :=
  (allNodes.map fun node =>
    match files node with
    | none => []
    | some fs =>
      (fs.filter fun e => decide (e.name = filename) && decide (e.userID = userID)).map
        fun _ => node).flatten

/-- The `for _, u := range users` loop of the local branch of `deleteFileOnNode`
(main.go 541-557).  `dirExists path` is false when `os.Stat(path)` reports
not-exist; `rmFails` makes `deleteFile` return an error. -/
def deleteLocalLoop (env : Environ) (dirExists : String → Bool) (rmFails : Bool) (st : Store)
    (filename nodeRoot : String) : List (String × Bool) → Store × List SyncEvent
  | [] => (st, [])
  | u :: rest =>
    if !u.2 then deleteLocalLoop env dirExists rmFails st filename nodeRoot rest
    else if !dirExists (filepathJoin [nodeRoot, u.1, filename]) then
      deleteLocalLoop env dirExists rmFails st filename nodeRoot rest
    else if rmFails then (st, [])
    else
      (deleteFile env st (getEnv env "NODE_ID" "s1") u.1 filename,
        [SyncEvent.removeLocal u.1 filename])

/-- The `for _, f := range users` loop of the remote branch of `deleteFileOnNode`
(main.go 570-596): the first record with that `fileName` decides the user id
of the DELETE; after a transport error the next record is tried, after any
response the loop ends.  `del node filename user` is the result of the request. -/
def deleteRemoteLoop (del : String → String → String → HttpResult) (nodeURL filename : String) :
    List MetaRecord → List SyncEvent
  | [] => []
  | f :: rest =>
    if f.fileName = filename then
      match del nodeURL filename f.userId with
      | HttpResult.transportError =>
        SyncEvent.deleteRequest nodeURL filename f.userId HttpResult.transportError
          :: deleteRemoteLoop del nodeURL filename rest
      | HttpResult.status code =>
        [SyncEvent.deleteRequest nodeURL filename f.userId (HttpResult.status code)]
    else deleteRemoteLoop del nodeURL filename rest

/-- What the Reconciler finds around it during one pass: directory listings
(`os.ReadDir`, `none` on error), existence of directories (`os.Stat`), failure of
`os.RemoveAll`, the metadata collection, the outcome of DELETE requests, of the
GET of a file from a node (`none` for a transport error, a status other than
200 or a body that cannot be read) and of pushes to `/store-local`. -/
structure SyncEnv where
  ls : String → Option (List (String × Bool))
  dirExists : String → Bool
  rmFails : Bool
  db : Option (List MetaRecord)
  del : String → String → String → HttpResult
  get : String → String → String → Option (List Byte)
  push : String → String → String → Bool

/-- Function `deleteFileOnNode(nodeURL, filename)` (main.go 532-597): the local
store afterwards and the actions taken. -/
def deleteFileOnNode (env : Environ) (w : SyncEnv) (st : Store) (nodeURL filename : String) :
    Store × List SyncEvent :=
  if nodeURL = selfURL env then
    let nodeRoot := filepathJoin [storageRoot env, getEnv env "NODE_ID" "s1"]
    match w.ls nodeRoot with
    | none => (st, [])
    | some users => deleteLocalLoop env w.dirExists w.rmFails st filename nodeRoot users
  else
    match getUserFilesFromFirebase w.db "" with
    | none => (st, [])
    | some users => (st, deleteRemoteLoop w.del nodeURL filename users)

/-- Function `downloadFileFromPeer(userID, peer, filename)` (main.go 705-733):
the local store afterwards and the returned bytes, `none` for an error return. -/
def downloadFileFromPeer (env : Environ) (w : SyncEnv) (f : Faults) (st : Store)
    (userID peer filename : String) : Option (Store × Option (List Byte)) :=
  match w.get peer userID filename with
  | none => some (st, none)
  | some data =>
    (writeChunks env f st userID filename data).map fun r =>
      (r.store, if r.err.isSome then none else some data)

/-- The target list of an under-replication repair (main.go 652-660). -/
def repairTargets (env : Environ) (healthyPeers nList : List String) : List String :=
  let targets := healthyPeers.filter fun peer => !contains nList peer
  if targets.length = 0 ∧ contains nList (selfURL env) = false then targets ++ [selfURL env]
  else targets

/-- The `for _, t := range targets` loop of the repair (main.go 662-673) from the
state `nList`, with the local store and the actions so far; `f` injects
failures into the local `writeChunks`, whose result the code drops. -/
def repairLoop (env : Environ) (w : SyncEnv) (f : Faults) (u fname : String) (data : List Byte) :
    List String → Store → List String → List SyncEvent →
      Option (Store × List String × List SyncEvent)
  | [], st, nList, ev => some (st, nList, ev)
  | t :: rest, st, nList, ev =>
    if t = selfURL env then
      (writeChunks env f st u fname data).bind fun r =>
        repairLoop env w f u fname data rest r.store (nList ++ [t]) ev
    else if w.push t u fname then
      repairLoop env w f u fname data rest st (nList ++ [t])
        (ev ++ [SyncEvent.push t u fname true])
    else
      repairLoop env w f u fname data rest st nList (ev ++ [SyncEvent.push t u fname false])

/-- Result of the work of one pass on one `(filename, userID)` entry: the local
store, the holder list (`nList` at the end of a repair, the entry itself
otherwise), the nodes handed to `deleteFileOnNode`, and the actions taken. -/
structure SyncResult where
  store : Store
  holders : List String
  toDelete : List String
  events : List SyncEvent

/-- The repair of an under-replicated entry (main.go 640-677).  `fDl` and `fTg`
inject failures into the `writeChunks` of the download and of the self target.
`none` for the empty list, on which `nList[0]` panics. -/
def repairUnder (env : Environ) (w : SyncEnv) (fDl fTg : Faults) (st : Store)
    (healthyPeers : List String) (f u : String) : List String → Option SyncResult
  | [] => none
  | sourceNode :: more =>
    (downloadFileFromPeer env w fDl st u sourceNode f).bind fun d =>
      match d.2 with
      | none =>
        some { store := d.1, holders := sourceNode :: more, toDelete := [],
               events := [SyncEvent.download sourceNode u f] }
      | some data =>
        (repairLoop env w fTg u f data (repairTargets env healthyPeers (sourceNode :: more))
            d.1 (sourceNode :: more) [SyncEvent.download sourceNode u f]).map fun r =>
          { store := r.1, holders := r.2.1, toDelete := [], events := r.2.2 }

/-- The `for _, node := range toDelete` loop (main.go 686-688). -/
def deleteEach (env : Environ) (w : SyncEnv) (filename : String) :
    List String → Store → List SyncEvent → Store × List SyncEvent
  | [], st, ev => (st, ev)
  | node :: rest, st, ev =>
    let r := deleteFileOnNode env w st node filename
    deleteEach env w filename rest r.1 (ev ++ r.2)

/-- The pruning of an over-replicated entry (main.go 681-689). -/
def pruneOver (env : Environ) (w : SyncEnv) (st : Store) (filename : String)
    (nodes : List String) : SyncResult :=
  let sortedNodes := sortStrings nodes
  let toDelete := sortedNodes.drop ReplicationFactor
  let r := deleteEach env w filename toDelete st []
  { store := r.1, holders := nodes, toDelete := toDelete, events := r.2 }

/-- The body of the loops of `syncMissingFiles` for one entry `(filename,
userID) ↦ nodes` (main.go 636-689); `healthyPeers` is the list returned by
`getHealthyNodes()` at the start of the pass.  The repair runs in a goroutine
of its own; it shares no variable of the entry with the rest of the pass. -/
def syncEntry (env : Environ) (w : SyncEnv) (fDl fTg : Faults) (st : Store)
    (healthyPeers : List String) (filename userID : String) (nodes : List String) :
    Option SyncResult :=
  if nodes.length < ReplicationFactor then
    repairUnder env w fDl fTg st healthyPeers filename userID nodes
  else if nodes.length > ReplicationFactor then
    some (pruneOver env w st filename nodes)
  else some { store := st, holders := nodes, toDelete := [], events := [] }

/-! ## Download (main.go 168-179, 458-514, 991-1115) -/

/-- Function `parseNodeID(node)` (main.go 168-179); `hostname node` is
`url.Parse(node)` followed by `Hostname()`, `none` when parsing fails. -/
def parseNodeID (hostname : String → Option String) (node : String) : String :=
  if "http://".data.isPrefixOf node.data || "https://".data.isPrefixOf node.data then
    match hostname node with
    | none => node
    | some host => host
  else node

/-- Go `unicode.IsSpace`. -/
def isSpace (c : Char) : Bool :=
  let n := c.toNat
  (9 ≤ n && n ≤ 13) || n = 32 || n = 0x85 || n = 0xA0 || n = 0x1680
    || (0x2000 ≤ n && n ≤ 0x200a) || n = 0x2028 || n = 0x2029 || n = 0x202f
    || n = 0x205f || n = 0x3000

/-- Go `strings.TrimSpace`. -/
def trimSpace (s : String) : String :=
  String.mk ((s.data.dropWhile isSpace).reverse.dropWhile isSpace).reverse

/-- Go `strings.Split(s, ",")` on the characters. -/
def splitComma : List Char → List (List Char)
  | [] => [[]]
  | c :: cs =>
    if c = ',' then [] :: splitComma cs
    else
      match splitComma cs with
      | [] => [[c]]
      | x :: xs => (c :: x) :: xs

/-- Result of `client.Get(peer/files/raw/user/filename)`: a transport error, or
a response with its status code and body (`none` when the body cannot be read). -/
inductive RawResult where
  | transportError
  | resp (code : Nat) (body : Option (List Byte))

/-- Answer of the download handler: status, body, and the nodes it sent a GET
for the file, in order. -/
structure Response where
  status : Nat
  body : List Byte
  contacted : List String
  deriving DecidableEq

/-- The `for _, peer := range peers` loop of `tryProxyFromPeers` (main.go 463-510). -/
def proxyLoop (h : HealthEnv) (rawGet : String → String → String → RawResult)
    (userID filename : String) : List String → HealthMap → List String → Response
  | [], _, c => { status := 404, body := [], contacted := c }
  | peer0 :: rest, m, c =>
    if trimSpace peer0 = "" then proxyLoop h rawGet userID filename rest m c
    else
      if (isNodeHealthy m (h.probe (trimSpace peer0)) (h.clock (trimSpace peer0))
            (trimSpace peer0)).1 = false then
        proxyLoop h rawGet userID filename rest
          (isNodeHealthy m (h.probe (trimSpace peer0)) (h.clock (trimSpace peer0))
            (trimSpace peer0)).2 c
      else
        match rawGet (trimSpace peer0) userID filename with
        | RawResult.resp 200 (some b) =>
          { status := 200, body := b, contacted := c ++ [trimSpace peer0] }
        | _ =>
          proxyLoop h rawGet userID filename rest
            (isNodeHealthy m (h.probe (trimSpace peer0)) (h.clock (trimSpace peer0))
              (trimSpace peer0)).2 (c ++ [trimSpace peer0])

/-- Function `tryProxyFromPeers(c, userID, filename, originalFilename)` (main.go 458-514). -/
def tryProxyFromPeers (env : Environ) (h : HealthEnv) (m : HealthMap)
    (rawGet : String → String → String → RawResult) (userID filename : String)
    (contacted : List String) : Response :=
  proxyLoop h rawGet userID filename ((splitComma (getEnv env "PEERS" "").data).map String.mk)
    m contacted

/-- The handler of `GET /api/files/:filename` (main.go 991-1115) after
authentication, for the authenticated `userID` and the unescaped `filename`. -/
def downloadHandler (env : Environ) (f : Faults) (st : Store) (db : Option (List MetaRecord))
    (hostname : String → Option String) (h : HealthEnv) (m : HealthMap)
    (rawGet : String → String → String → RawResult) (userID filename : String) :
    Option Response :=
  match getFileMetadataFromFirebase db userID filename with
  | none => some { status := 404, body := [], contacted := [] }
  | some fileMeta =>
    match fileMeta.nodeId with
    | [] => some { status := 500, body := [], contacted := [] }
    | targetNodeRaw :: _ =>
      let targetNodeID := parseNodeID hostname targetNodeRaw
      let currentNodeID := parseNodeID hostname (getEnv env "NODE_ID" "")
      if targetNodeID = currentNodeID then
        if hasAnyChunk env st currentNodeID fileMeta.userId fileMeta.fileName = false then
          some { status := 404, body := [], contacted := [] }
        else
          (reconstructToWriter env f st currentNodeID fileMeta.userId fileMeta.fileName []).map
            fun r =>
              match r.err with
              | some _ => { status := 500, body := [], contacted := [] }
              | none => { status := 200, body := r.sink, contacted := [] }
      else if (isNodeHealthy m (h.probe targetNodeRaw) (h.clock targetNodeRaw)
                targetNodeRaw).1 = false then
        some (tryProxyFromPeers env h
          (isNodeHealthy m (h.probe targetNodeRaw) (h.clock targetNodeRaw) targetNodeRaw).2
          rawGet fileMeta.userId fileMeta.fileName [])
      else
        match rawGet targetNodeRaw fileMeta.userId fileMeta.fileName with
        | RawResult.transportError =>
          some { status := 500, body := [], contacted := [targetNodeRaw] }
        | RawResult.resp code body =>
          if code ≠ 200 then some { status := code, body := [], contacted := [targetNodeRaw] }
          else
            match body with
            | none => some { status := 500, body := [], contacted := [targetNodeRaw] }
            | some b => some { status := 200, body := b, contacted := [targetNodeRaw] }

/-- Holder list after `n` passes in succession, each pass mapping the entry it
finds to the holder list it leaves. -/
def holdersAfterPasses (pass : List String → Option (List String)) :
    Nat → List String → Option (List String)
  | 0, holders => some holders
  | n + 1, holders => (pass holders).bind (holdersAfterPasses pass n)

/-! ## Concrete scenarios of the Reconciler and of the download -/

/-- Environment of the node `node`: only `NODE_ID` is set. -/
def envOf (node : String) : Environ := fun k => if k = "NODE_ID" then node else ""

/-- Scenario S3: `s1` serves `a.bin` (three bytes), every push is accepted, the
metadata collection is empty and DELETE requests are answered 401. -/
def s3World : SyncEnv :=
  { ls := fun _ => none, dirExists := fun _ => false, rmFails := false, db := some [],
    del := fun _ _ _ => HttpResult.status 401,
    get := fun src _ _ => if src = "http://s1:8080" then some [1, 2, 3] else none,
    push := fun _ _ _ => true }

/-- Scenario S3, `/files` listings: only `s1` lists `a.bin` of `u1`. -/
def s3Files : String → Option (List FileEntry) :=
  fun url => if url = "http://s1:8080" then some [⟨"a.bin", "u1"⟩] else some []

/-- Every node serves `a.bin`, every push is refused. -/
def pushDownWorld : SyncEnv :=
  { ls := fun _ => none, dirExists := fun _ => false, rmFails := false, db := some [],
    del := fun _ _ _ => HttpResult.status 401,
    get := fun _ _ _ => some [1, 2, 3],
    push := fun _ _ _ => false }

/-- Store of node `s1` that holds `a.bin` of user `u1` (one chunk of three bytes). -/
def loneStore : Store :=
  fun p => if p = "/app/storage/s1/u1/a.bin" then [(0, [1, 2, 3])] else []

/-- Disk of node `s3` on which the users `u1` and `u2` both hold a file `a.bin`. -/
def twoUserStore : Store :=
  fun p =>
    if p = "/app/storage/s3/u1/a.bin" then [(0, [1])]
    else if p = "/app/storage/s3/u2/a.bin" then [(0, [2])]
    else []

/-- What node `s3` finds around it with the disk `twoUserStore`: the user
directories `u1`, `u2`, and a metadata collection `db`. -/
def twoUserWorld (db : List MetaRecord) : SyncEnv :=
  { ls := fun p => if p = "/app/storage/s3" then some [("u1", true), ("u2", true)] else none,
    dirExists := fun p => p = "/app/storage/s3/u1/a.bin" || p = "/app/storage/s3/u2/a.bin",
    rmFails := false, db := some db,
    del := fun _ _ _ => HttpResult.status 401,
    get := fun _ _ _ => none,
    push := fun _ _ _ => false }

/-- Host names of the three node URLs, as `url.Parse` and `Hostname` give them. -/
def hostOf : String → Option String :=
  fun u =>
    if u = "http://s1:8080" then some "s1"
    else if u = "http://s2:8080" then some "s2"
    else if u = "http://s3:8080" then some "s3"
    else none

/-- Only `s2` returns the file (three bytes); every other node answers 404. -/
def rawOnlyS2 : String → String → String → RawResult :=
  fun p _ _ =>
    if p = "http://s2:8080" then RawResult.resp 200 (some [1, 2, 3]) else RawResult.resp 404 none

/-- Environment of node `s1` with `PEERS` listing `s2` and `s3`. -/
def envS1Peers : Environ :=
  fun k =>
    if k = "NODE_ID" then "s1"
    else if k = "PEERS" then "http://s2:8080, http://s3:8080"
    else ""

/-- Every probe fails. -/
def allDown : HealthEnv := { probe := fun _ => ⟨true, 0⟩, clock := fun _ => 0 }

/-- The probe of `s3` fails, every other probe answers 200. -/
def s3Down : HealthEnv :=
  { probe := fun u => if u = "http://s3:8080" then ⟨true, 0⟩ else ⟨false, 200⟩,
    clock := fun _ => 0 }

/-! ## Over-replication seen from each node -/

/-- Scenario S4: the three nodes hold `a.bin` of `u1` (three bytes), the metadata
collection has the record of that file with `userId = "u1"`, every node serves
the file, accepts every push and answers 200 to every DELETE; each node root
has the one user directory `u1` with the directory `a.bin` in it. -/
def s4World : SyncEnv :=
  { ls := fun p =>
      if p = "/app/storage/s1" || p = "/app/storage/s2" || p = "/app/storage/s3"
      then some [("u1", true)] else none,
    dirExists := fun p =>
      p = "/app/storage/s1/u1/a.bin" || p = "/app/storage/s2/u1/a.bin"
        || p = "/app/storage/s3/u1/a.bin",
    rmFails := false,
    db := some [⟨"a.bin", "u1", ["s1", "s2", "s3"]⟩],
    del := fun _ _ _ => HttpResult.status 200,
    get := fun _ _ _ => some [1, 2, 3],
    push := fun _ _ _ => true }

/-- Scenario S4, `/files` listings: every node lists `a.bin` of `u1`. -/
def s4Files : String → Option (List FileEntry) :=
  fun _ => some [⟨"a.bin", "u1"⟩]

/-- Scenario S4, disks: `a.bin` of `u1` is one chunk of three bytes under each
node root. -/
def s4Store : Store :=
  fun p =>
    if p = "/app/storage/s1/u1/a.bin" || p = "/app/storage/s2/u1/a.bin"
      || p = "/app/storage/s3/u1/a.bin"
    then [(0, [1, 2, 3])] else []

/-! ## Passes in succession on one node -/

/-- The decoded `/files` listings, restricted to `(filename, userID)`, that a
pass on the node of `env` receives: the node itself lists the file when its
store holds a chunk of it, a peer lists it when it is in `peers`. -/
def clusterListing (env : Environ) (st : Store) (peers : List String)
    (filename userID : String) : String → Option (List FileEntry) :=
  fun node =>
    if node = selfURL env then
      if hasAnyChunk env st (getEnv env "NODE_ID" "s1") userID filename
      then some [⟨filename, userID⟩] else some []
    else if contains peers node then some [⟨filename, userID⟩] else some []

/-- Whether an action is a DELETE for `(userID, filename)` sent to node `n` and
answered with a 2xx status, on which the handler of `n` removes its copy
(main.go 1161). -/
def SyncEvent.deletedOn (n userID filename : String) : SyncEvent → Bool
  | SyncEvent.deleteRequest m f u (HttpResult.status code) =>
    decide (m = n) && decide (u = userID) && decide (f = filename)
      && decide (200 ≤ code) && decide (code < 300)
  | _ => false

/-- The peers that hold `(userID, filename)` when a pass is over: the nodes of
the holder list of the pass (the entry, followed by the targets that took the
file), without the node itself and without the peers that removed their copy
on a DELETE of the pass. -/
def peersAfter (env : Environ) (userID filename : String) (r : SyncResult) : List String :=
  r.holders.filter fun n =>
    decide (n ≠ selfURL env) && !(r.events.any (SyncEvent.deletedOn n userID filename))

/-- One pass of `syncMissingFiles` on the node of `env`, for the file
`(userID, filename)`, from the local store and the list of peers that hold the
file: the entry is gathered in the order `allNodes` (main.go 601-626); without
any holder there is no entry and nothing is done.  The local store afterwards
is the one the pass leaves. -/
def reconcilerPass (env : Environ) (w : SyncEnv) (healthyPeers : List String)
    (filename userID : String) (s : Store × List String) : Option (Store × List String) :=
  match gatherHolders (peersList env ++ [selfURL env])
      (clusterListing env s.1 s.2 filename userID) filename userID with
  | [] => some s
  | n :: ns =>
    (syncEntry env w noFaults noFaults s.1 healthyPeers filename userID (n :: ns)).map fun r =>
      (r.store, peersAfter env userID filename r)

/-- The passes of `startAutoSync` (main.go 518-528) in succession on one node:
the state after `n` passes. -/
def reconcilerPasses (env : Environ) (w : SyncEnv) (healthyPeers : List String)
    (filename userID : String) : Nat → Store × List String → Option (Store × List String)
  | 0, s => some s
  | n + 1, s =>
    (reconcilerPass env w healthyPeers filename userID s).bind
      (reconcilerPasses env w healthyPeers filename userID n)

/-- Number of nodes that hold `(userID, filename)` in a state: the peers that
hold it, and the node itself when its store has a chunk of the file. -/
def holderCount (env : Environ) (filename userID : String) (s : Store × List String) : Nat :=
  s.2.length + (if hasAnyChunk env s.1 (getEnv env "NODE_ID" "s1") userID filename then 1 else 0)

/-! ## Rewrite over an existing file -/

/-- Concatenation of the chunk files `n .. m-1` of a directory, in index order. -/
def staleChunks (d : Dir) (n m : Nat) : List Byte :=
  ((List.range' n (m - n)).map (fun j => (chunkAt d j).getD [])).flatten

/-- Store of node `s1` in which `a.bin` of `u1` has the chunk files `0.chunk` (one
byte) and `1.chunk` (one byte). -/
def twoChunkStore : Store :=
  fun p => if p = "/app/storage/s1/u1/a.bin" then [(0, [1]), (1, [2])] else []

/-- Store of node `s1` in which `a.bin` of `u1` has the chunk files `0.chunk` (one
byte) and `1.chunk` (empty). -/
def emptyTailStore : Store :=
  fun p => if p = "/app/storage/s1/u1/a.bin" then [(0, [1]), (1, [])] else []

/-! ## Chunk store: lemmas -/

theorem ChunkSize_pos : 0 < ChunkSize := by decide

theorem chunkAt_writeFile (d : Dir) (i j : Nat) (b : List Byte) :
    chunkAt (writeFile d i b) j = if j = i then some b else chunkAt d j := by
  unfold chunkAt writeFile
  by_cases h : j = i
  · subst h
    simp [List.lookup]
  · have hne : (j == i) = false := by simpa using h
    simp only [List.lookup, hne, h, if_false]
    induction d with
    | nil => simp
    | cons e d ih =>
      obtain ⟨a, c⟩ := e
      by_cases ha : a = i
      · subst ha
        have : (j == a) = false := hne
        simp [List.filter, List.lookup, this, ih]
      · have hai : (a != i) = true := by simpa using ha
        simp only [List.filter, hai, List.lookup]
        cases hj : (j == a) <;> simp [ih]

theorem chunkOf_eq (data : List Byte) (j : Nat) :
    chunkOf data j = (data.drop (j * ChunkSize)).take ChunkSize := by
  unfold chunkOf slice
  split
  · rename_i h
    rw [List.take_of_length_le (by simp), List.take_of_length_le (by simp; omega)]
  · rename_i h
    congr 1
    omega

theorem writeLoop_run (f : Faults) (data : List Byte) (k : Nat)
    (hk : ∀ i, i < k → i * ChunkSize < data.length)
    (hok : ∀ i, i < k → f.write i = false)
    (hstop : k * ChunkSize < data.length → f.write k = true) :
    ∀ (fuel count : Nat) (d : Dir), count ≤ k → data.length ≤ count * ChunkSize + fuel →
      ∃ d', writeLoop f data fuel (count * ChunkSize) count d
          = some (d', k, if k * ChunkSize < data.length then some Err.ioError else none)
        ∧ ∀ j, chunkAt d' j = if count ≤ j ∧ j < k then some (chunkOf data j) else chunkAt d j := by
  intro fuel
  induction fuel with
  | zero =>
    intro count d hck hfuel
    have hge : ¬ count * ChunkSize < data.length := by omega
    have hcount : count = k := by
      rcases Nat.lt_or_ge count k with h | h
      · exact absurd (hk count h) hge
      · omega
    subst hcount
    refine ⟨d, ?_, ?_⟩
    · unfold writeLoop
      simp [hge]
    · intro j
      have : ¬ (count ≤ j ∧ j < count) := by omega
      simp [this]
  | succ fuel ih =>
    intro count d hck hfuel
    by_cases hlt : count * ChunkSize < data.length
    · rcases Nat.lt_or_ge count k with h | h
      · have hw := hok count h
        have hcs := ChunkSize_pos
        have hmul : (count + 1) * ChunkSize = count * ChunkSize + ChunkSize := Nat.succ_mul _ _
        obtain ⟨d', hrun, hd'⟩ := ih (count + 1)
          (writeFile d count (chunkOf data count)) h (by rw [hmul]; omega)
        refine ⟨d', ?_, ?_⟩
        · rw [writeLoop]
          simp only [hlt, if_true, hw]
          rw [hmul] at hrun
          exact hrun
        · intro j
          rw [hd' j, chunkAt_writeFile]
          by_cases hj : j = count
          · subst hj
            have h1 : ¬ (j + 1 ≤ j ∧ j < k) := by omega
            have h2 : (j ≤ j ∧ j < k) := by omega
            simp [h1, h2]
          · by_cases hr : count + 1 ≤ j ∧ j < k
            · have h2 : count ≤ j ∧ j < k := by omega
              simp [hr, h2]
            · have h2 : ¬ (count ≤ j ∧ j < k) := by omega
              simp [hr, h2, hj]
      · have hcount : count = k := by omega
        subst hcount
        have hw := hstop hlt
        refine ⟨d, ?_, ?_⟩
        · rw [writeLoop]
          simp [hlt, hw]
        · intro j
          have : ¬ (count ≤ j ∧ j < count) := by omega
          simp [this]
    · have hcount : count = k := by
        rcases Nat.lt_or_ge count k with h | h
        · exact absurd (hk count h) hlt
        · omega
      subst hcount
      refine ⟨d, ?_, ?_⟩
      · rw [writeLoop]
        simp [hlt]
      · intro j
        have : ¬ (count ≤ j ∧ j < count) := by omega
        simp [this]

theorem lt_chunkCount_iff (len i : Nat) : i < chunkCount len ↔ i * ChunkSize < len := by
  unfold chunkCount
  have hcs := ChunkSize_pos
  rw [Nat.lt_iff_add_one_le, Nat.le_div_iff_mul_le hcs, Nat.succ_mul]
  omega

theorem chunkCount_mul_ge (len : Nat) : len ≤ chunkCount len * ChunkSize := by
  have h := (lt_chunkCount_iff len (chunkCount len)).not
  simp at h
  exact h

theorem catChunks_succ (d : Dir) (m : Nat) :
    catChunks d (m + 1) = catChunks d m ++ (chunkAt d m).getD [] := by
  simp [catChunks, List.range_succ]

theorem catChunks_congr (d d' : Dir) (m : Nat) (h : ∀ j, j < m → chunkAt d j = chunkAt d' j) :
    catChunks d m = catChunks d' m := by
  induction m with
  | zero => rfl
  | succ m ih =>
    rw [catChunks_succ, catChunks_succ, ih (fun j hj => h j (by omega)), h m (by omega)]

theorem catChunks_of_chunks (d : Dir) (data : List Byte) (m : Nat)
    (h : ∀ j, j < m → chunkAt d j = some (chunkOf data j)) :
    catChunks d m = data.take (m * ChunkSize) := by
  induction m with
  | zero => simp [catChunks]
  | succ m ih =>
    rw [catChunks_succ, ih (fun j hj => h j (by omega)), h m (by omega), Nat.succ_mul,
      List.take_add, chunkOf_eq]
    rfl

theorem reconstructLoop_run (f : Faults) (d : Dir) (k : Nat) (sink0 : List Byte)
    (hgap : chunkAt d k = none) (hfull : ∀ j, j < k → chunkAt d j ≠ none)
    (hstat : ∀ j, j ≤ k → f.stat j = false) (hread : ∀ j, j < k → f.read j = false)
    (hsink : ∀ j, j < k → f.sink j = false) :
    ∀ (fuel i : Nat), i ≤ k → k < i + fuel →
      reconstructLoop f d fuel i (catChunks d i).length (sink0 ++ catChunks d i)
        = some (sink0 ++ catChunks d k, (catChunks d k).length, none) := by
  intro fuel
  induction fuel with
  | zero => intro i h1 h2; omega
  | succ fuel ih =>
    intro i h1 h2
    rcases Nat.lt_or_ge i k with h | h
    · obtain ⟨b, hb⟩ := Option.ne_none_iff_exists'.mp (hfull i h)
      have := ih (i + 1) h (by omega)
      rw [catChunks_succ, hb] at this
      simp only [Option.getD_some, List.length_append, ← List.append_assoc] at this
      rw [reconstructLoop]
      simp only [hb, hstat i (by omega), hread i h, hsink i h]
      simpa using this
    · have hik : i = k := by omega
      subst hik
      rw [reconstructLoop]
      simp [hgap, hstat i (by omega)]

theorem exists_first_gap (d : Dir) :
    ∃ k, k ≤ d.length ∧ chunkAt d k = none ∧ ∀ j, j < k → chunkAt d j ≠ none := by
  classical
  have hex : ∃ k, k ≤ d.length ∧ chunkAt d k = none := by
    by_contra hcon
    push_neg at hcon
    have hsub : List.range (d.length + 1) ⊆ d.map Prod.fst := by
      intro i hi
      have hi' : i ≤ d.length := by simpa [Nat.lt_succ_iff] using hi
      obtain ⟨b, hb⟩ := Option.ne_none_iff_exists'.mp (hcon i hi')
      obtain ⟨l₁, l₂, hl, -⟩ := List.lookup_eq_some_iff.mp hb
      rw [hl]
      simp
    have hle := (List.subperm_of_subset (List.nodup_range _) hsub).length_le
    simp at hle
  have hex' : ∃ k, chunkAt d k = none := let ⟨k, _, h⟩ := hex; ⟨k, h⟩
  refine ⟨Nat.find hex', ?_, Nat.find_spec hex', fun j hj => Nat.find_min hex' hj⟩
  obtain ⟨k, hk, hk'⟩ := hex
  exact le_trans (Nat.find_min' hex' hk') hk

theorem chunkOf_eq_slice_min (data : List Byte) (j : Nat) :
    chunkOf data j = slice data (j * ChunkSize) (min ((j + 1) * ChunkSize) data.length) := by
  unfold chunkOf
  rw [Nat.succ_mul]
  congr 1
  split <;> omega

theorem chunkOf_length (data : List Byte) (j : Nat) :
    (chunkOf data j).length = min ChunkSize (data.length - j * ChunkSize) := by
  rw [chunkOf_eq]
  simp

theorem writeChunks_run (env : Environ) (f : Faults) (st : Store) (userID filename : String)
    (data : List Byte) (k : Nat) (hmk : f.mkdir = false)
    (hk : ∀ i, i < k → i * ChunkSize < data.length)
    (hok : ∀ i, i < k → f.write i = false)
    (hstop : k * ChunkSize < data.length → f.write k = true) :
    ∃ w, writeChunks env f st userID filename data = some w ∧ w.count = k
      ∧ w.err = (if k * ChunkSize < data.length then some Err.ioError else none)
      ∧ (∀ j, chunkAt (w.store (writeChunksDir env userID filename)) j
          = if j < k then some (chunkOf data j)
            else chunkAt (st (writeChunksDir env userID filename)) j)
      ∧ ∀ p, p ≠ writeChunksDir env userID filename → w.store p = st p := by
  obtain ⟨d', hrun, hd'⟩ := writeLoop_run f data k hk hok hstop data.length 0
    (st (writeChunksDir env userID filename)) (Nat.zero_le _) (by omega)
  rw [Nat.zero_mul] at hrun
  refine ⟨{ store := Function.update st (writeChunksDir env userID filename) d', count := k,
             err := if k * ChunkSize < data.length then some Err.ioError else none }, ?_, ?_, ?_, ?_, ?_⟩
  · unfold writeChunks
    simp [hmk, hrun]
  · rfl
  · rfl
  · intro j
    simp only [Function.update_same]
    rw [hd' j]
    simp
  · intro p hp
    simp [Function.update_noteq hp]

theorem reconstructToWriter_run (env : Environ) (st : Store) (nodeID userID filename : String)
    (sink : List Byte) :
    ∃ k, chunkAt (st (reconstructDir env nodeID userID filename)) k = none
      ∧ (∀ j, j < k → chunkAt (st (reconstructDir env nodeID userID filename)) j ≠ none)
      ∧ reconstructToWriter env noFaults st nodeID userID filename sink
        = some (if (catChunks (st (reconstructDir env nodeID userID filename)) k).length = 0
            then { sink := sink ++ catChunks (st (reconstructDir env nodeID userID filename)) k,
                   total := 0, err := some Err.noChunks }
            else { sink := sink ++ catChunks (st (reconstructDir env nodeID userID filename)) k,
                   total := (catChunks (st (reconstructDir env nodeID userID filename)) k).length,
                   err := none }) := by
  obtain ⟨k, hkle, hgap, hfull⟩ := exists_first_gap (st (reconstructDir env nodeID userID filename))
  refine ⟨k, hgap, hfull, ?_⟩
  have hrun := reconstructLoop_run noFaults _ k sink hgap hfull (fun _ _ => rfl) (fun _ _ => rfl)
    (fun _ _ => rfl) ((st (reconstructDir env nodeID userID filename)).length + 1) 0
    (Nat.zero_le _) (by omega)
  have h0 : catChunks (st (reconstructDir env nodeID userID filename)) 0 = [] := rfl
  rw [h0] at hrun
  simp only [List.length_nil, List.append_nil] at hrun
  unfold reconstructToWriter
  simp only [hrun, Option.map_some']

theorem first_gap_unique (d : Dir) (k k' : Nat) (h1 : chunkAt d k = none)
    (h2 : ∀ j, j < k → chunkAt d j ≠ none) (h1' : chunkAt d k' = none)
    (h2' : ∀ j, j < k' → chunkAt d j ≠ none) : k = k' := by
  rcases Nat.lt_trichotomy k k' with h | h | h
  · exact absurd h1 (h2' k h)
  · exact h
  · exact absurd h1' (h2 k' h)

/-- Write that stops at chunk `k` into an empty directory, then read back: the read
succeeds with the first `k * ChunkSize` bytes (all of `data` when `k` is the chunk count). -/
theorem write_then_read (env : Environ) (f : Faults) (st : Store) (userID filename : String)
    (data sink : List Byte) (k : Nat) (hbase : filepathBase filename = filename)
    (hempty : st (writeChunksDir env userID filename) = [])
    (hmk : f.mkdir = false) (hpos : 0 < k)
    (hk : ∀ i, i < k → i * ChunkSize < data.length)
    (hok : ∀ i, i < k → f.write i = false)
    (hstop : k * ChunkSize < data.length → f.write k = true) :
    ∃ w, writeChunks env f st userID filename data = some w ∧ w.count = k
      ∧ w.err = (if k * ChunkSize < data.length then some Err.ioError else none)
      ∧ reconstructToWriter env noFaults w.store (getEnv env "NODE_ID" "s1") userID filename sink
        = some { sink := sink ++ data.take (k * ChunkSize),
                 total := (data.take (k * ChunkSize)).length, err := none } := by
  obtain ⟨w, hw, hcount, herr, hchunks, -⟩ :=
    writeChunks_run env f st userID filename data k hmk hk hok hstop
  refine ⟨w, hw, hcount, herr, ?_⟩
  have hdir : reconstructDir env (getEnv env "NODE_ID" "s1") userID filename
      = writeChunksDir env userID filename := by
    unfold reconstructDir writeChunksDir
    simp only [hbase]
  obtain ⟨k', hgap, hfull, hres⟩ :=
    reconstructToWriter_run env w.store (getEnv env "NODE_ID" "s1") userID filename sink
  rw [hdir] at hgap hfull hres
  have hkk : k' = k := by
    apply first_gap_unique _ _ _ hgap hfull
    · rw [hchunks k]; simp [hempty, chunkAt]
    · intro j hj; rw [hchunks j]; simp [hj]
  subst hkk
  have hcat : catChunks (w.store (writeChunksDir env userID filename)) k'
      = data.take (k' * ChunkSize) :=
    catChunks_of_chunks _ data k' (fun j hj => by rw [hchunks j]; simp [hj])
  rw [hcat] at hres
  have hlen : (data.take (k' * ChunkSize)).length ≠ 0 := by
    have h0 := hk 0 hpos
    have hcs := ChunkSize_pos
    have : 1 * ChunkSize ≤ k' * ChunkSize := Nat.mul_le_mul_right _ hpos
    simp only [List.length_take]
    omega
  rw [hres, if_neg hlen]

/-- The write loop always ends within `len(data)` iterations, whatever fails. -/
theorem writeLoop_returns (f : Faults) (data : List Byte) :
    ∀ (fuel offset count : Nat) (d : Dir), data.length ≤ offset + fuel →
      (writeLoop f data fuel offset count d).isSome = true := by
  intro fuel
  induction fuel with
  | zero =>
    intro offset count d h
    have hge : ¬ offset < data.length := by omega
    rw [writeLoop]
    simp [hge]
  | succ fuel ih =>
    intro offset count d h
    rw [writeLoop]
    by_cases hlt : offset < data.length
    · simp only [hlt, if_true]
      by_cases hw : f.write count = true
      · simp [hw]
      · simp only [hw, if_false, Bool.false_eq_true]
        have hcs := ChunkSize_pos
        exact ih _ _ _ (by omega)
    · simp [hlt]

/-- Function `writeChunks` returns on every input and under every failure. -/
theorem writeChunks_returns (env : Environ) (f : Faults) (st : Store) (userID filename : String)
    (data : List Byte) : (writeChunks env f st userID filename data).isSome = true := by
  unfold writeChunks
  by_cases hmk : f.mkdir = true
  · simp [hmk]
  · simp only [hmk, if_false, Bool.false_eq_true, Option.isSome_map']
    exact writeLoop_returns f data _ _ _ _ (by omega)

/-- The read loop ends at the first missing index at the latest, whatever fails. -/
theorem reconstructLoop_returns (f : Faults) (d : Dir) (k : Nat) (hgap : chunkAt d k = none) :
    ∀ (fuel i total : Nat) (sink : List Byte), i ≤ k → k < i + fuel →
      (reconstructLoop f d fuel i total sink).isSome = true := by
  intro fuel
  induction fuel with
  | zero => intro i total sink h1 h2; omega
  | succ fuel ih =>
    intro i total sink h1 h2
    rw [reconstructLoop]
    split
    · rfl
    · split
      · rfl
      · cases hc : chunkAt d i with
        | none => rfl
        | some b =>
          simp only []
          split
          · rfl
          · have hik : i ≠ k := by
              rintro rfl
              rw [hgap] at hc
              exact absurd hc (by simp)
            exact ih _ _ _ (by omega) (by omega)

/-- Function `reconstructToWriter` returns on every directory state and under
every failure. -/
theorem reconstructToWriter_returns (env : Environ) (f : Faults) (st : Store)
    (nodeID userID filename : String) (sink : List Byte) :
    (reconstructToWriter env f st nodeID userID filename sink).isSome = true := by
  obtain ⟨k, hkle, hgap, -⟩ := exists_first_gap (st (reconstructDir env nodeID userID filename))
  unfold reconstructToWriter
  simp only [Option.isSome_map']
  exact reconstructLoop_returns f _ k hgap _ 0 0 sink (Nat.zero_le _) (by omega)

/-! ## Health, placement and replication: lemmas -/

theorem minNode_split (count : String → Nat) :
    ∀ (rest : List String) (m : String),
      (minNode (m, count m) (rest.map fun n => (n, count n))).2
          = count (minNode (m, count m) (rest.map fun n => (n, count n))).1
      ∧ ∃ pre post,
          m :: rest = pre ++ (minNode (m, count m) (rest.map fun n => (n, count n))).1 :: post
          ∧ (∀ x ∈ pre, count (minNode (m, count m) (rest.map fun n => (n, count n))).1 < count x)
          ∧ (∀ x ∈ post, count (minNode (m, count m) (rest.map fun n => (n, count n))).1 ≤ count x) := by
  intro rest
  induction rest with
  | nil =>
    intro m
    exact ⟨rfl, [], [], rfl, by simp, by simp⟩
  | cons n rest ih =>
    intro m
    simp only [List.map_cons, minNode]
    by_cases hlt : count n < count m
    · simp only [hlt, if_true]
      obtain ⟨h2, pre, post, hsplit, hpre, hpost⟩ := ih n
      refine ⟨h2, m :: pre, post, by rw [List.cons_append, ← hsplit], ?_, hpost⟩
      intro x hx
      rcases List.mem_cons.mp hx with rfl | hx
      · have hn : n ∈ pre ++ (minNode (n, count n) (rest.map fun n => (n, count n))).1 :: post := by
          rw [← hsplit]; exact List.mem_cons_self _ _
        rcases List.mem_append.mp hn with h | h
        · exact lt_trans (hpre n h) hlt
        · rcases List.mem_cons.mp h with h | h
          · rw [← h]; exact hlt
          · exact lt_of_le_of_lt (hpost n h) hlt
      · exact hpre x hx
    · simp only [hlt, if_false]
      obtain ⟨h2, pre, post, hsplit, hpre, hpost⟩ := ih m
      generalize minNode (m, count m) (rest.map fun n => (n, count n)) = r at h2 hsplit hpre hpost ⊢
      refine ⟨h2, ?_⟩
      cases pre with
      | nil =>
        simp only [List.nil_append, List.cons.injEq] at hsplit
        obtain ⟨hm, hrest⟩ := hsplit
        refine ⟨[], n :: post, ?_, by simp, ?_⟩
        · rw [← hm, hrest]; rfl
        · intro x hx
          rcases List.mem_cons.mp hx with rfl | hx
          · rw [← hm]; omega
          · exact hpost x hx
      | cons a pre' =>
        simp only [List.cons_append, List.cons.injEq] at hsplit
        obtain ⟨hm, hrest⟩ := hsplit
        subst hm
        refine ⟨m :: n :: pre', post, ?_, ?_, hpost⟩
        · rw [hrest]; rfl
        · intro x hx
          have hm' := hpre m (List.mem_cons_self _ _)
          rcases List.mem_cons.mp hx with rfl | hx
          · exact hm'
          · rcases List.mem_cons.mp hx with rfl | hx
            · omega
            · exact hpre x (List.mem_cons_of_mem _ hx)

theorem chooseTargetNode_split (env : Environ) (healthy : List String) (count : String → Nat) :
    ∃ pre post, healthy ++ [selfURL env] = pre ++ chooseTargetNode env healthy count :: post
      ∧ (∀ x ∈ pre, count (chooseTargetNode env healthy count) < count x)
      ∧ (∀ x ∈ post, count (chooseTargetNode env healthy count) ≤ count x) := by
  unfold chooseTargetNode
  cases hC : healthy ++ [selfURL env] with
  | nil => simp at hC
  | cons c0 rest =>
    simp only [List.length_cons, Nat.add_one_ne_zero, if_false, List.map_cons]
    exact (minNode_split count rest c0).2

theorem pushAttempts_fst (push : String → Nat → Bool) (p : String) (l : List Nat) :
    (pushAttempts push p l).1 = l.any (fun k => push p k) := by
  induction l with
  | nil => rfl
  | cons a l ih =>
    simp only [pushAttempts, List.any_cons]
    by_cases h : push p a = true
    · simp [h]
    · simp [h, ih]

theorem pushAttempts_peer (push : String → Nat → Bool) (p : String) (l : List Nat) :
    ∀ e ∈ (pushAttempts push p l).2, ∀ q, e.peer? = some q → q = p := by
  induction l with
  | nil => intro e he; simp [pushAttempts] at he
  | cons a l ih =>
    intro e he q hq
    simp only [pushAttempts] at he
    by_cases h : push p a = true
    · simp only [h, if_true, List.mem_singleton] at he
      subst he
      simpa [Event.peer?] using hq.symm
    · simp only [h, if_false, List.mem_cons, Bool.false_eq_true] at he
      rcases he with rfl | rfl | he
      · simpa [Event.peer?] using hq.symm
      · simp [Event.peer?] at hq
      · exact ih e he q hq

theorem replicateLoop_spec (self : String) (head : String → Bool) (push : String → Nat → Bool) :
    ∀ (healthy : List String) (tr : List Event), self ∉ healthy → healthy.Nodup →
      ∃ tr', replicateLoop self head push healthy [self] 1 tr
          = (self :: (healthy.filter (accepts head push)).take (ReplicationFactor - 1),
             1 + ((healthy.filter (accepts head push)).take (ReplicationFactor - 1)).length,
             tr ++ tr')
        ∧ (∀ e ∈ tr', ∀ q, e.peer? = some q → q ∈ healthy)
        ∧ (∀ p k, Event.push p k ∈ tr' → head p = false)
        ∧ (∀ pre p post, healthy = pre ++ p :: post → accepts head push p = true →
            (∀ x ∈ pre, accepts head push x = false) →
            ∀ q ∈ post, ∀ e ∈ tr', e.peer? ≠ some q) := by
  intro healthy
  induction healthy with
  | nil =>
    intro tr _ _
    refine ⟨[], by simp [replicateLoop], by simp, by simp, by simp⟩
  | cons a rest ih =>
    intro tr hself hnd
    have ha : a ≠ self := fun h => hself (h ▸ List.mem_cons_self _ _)
    have hself' : self ∉ rest := fun h => hself (List.mem_cons_of_mem _ h)
    have hnd' : rest.Nodup := (List.nodup_cons.mp hnd).2
    have ha' : a ∉ rest := (List.nodup_cons.mp hnd).1
    have hRF : ReplicationFactor = 2 := rfl
    by_cases hh : head a = true
    · -- HEAD reports the file: stored without a push, count reaches R
      have hacc : accepts head push a = true := by simp [accepts, hh]
      refine ⟨[Event.head a], ?_, ?_, ?_, ?_⟩
      · simp [replicateLoop, ha, hh, hRF, List.filter_cons, hacc]
      · intro e he q hq
        simp only [List.mem_singleton] at he
        subst he
        simp only [Event.peer?, Option.some.injEq] at hq
        simp [← hq]
      · intro p k hp
        simp at hp
      · intro pre p post hsplit _ hpre q hq e he
        simp only [List.mem_singleton] at he
        subst he
        cases pre with
        | nil =>
          simp only [List.nil_append, List.cons.injEq] at hsplit
          simp only [Event.peer?, ne_eq, Option.some.injEq]
          rintro rfl
          exact ha' (hsplit.2 ▸ hq)
        | cons x pre' =>
          simp only [List.cons_append, List.cons.injEq] at hsplit
          have := hpre x (List.mem_cons_self _ _)
          rw [← hsplit.1, hacc] at this
          exact absurd this (by simp)
    · have hh' : head a = false := by simpa using hh
      have hpeer := pushAttempts_peer push a (List.range' 1 ReplicateMaxRetries)
      have hfst := pushAttempts_fst push a (List.range' 1 ReplicateMaxRetries)
      have hacc_eq : accepts head push a
          = (pushAttempts push a (List.range' 1 ReplicateMaxRetries)).1 := by
        simp [accepts, hh', hfst]
      have hunf : replicateLoop self head push (a :: rest) [self] 1 tr
          = if (if (pushAttempts push a (List.range' 1 ReplicateMaxRetries)).1 then 1 + 1 else 1)
                ≥ ReplicationFactor
            then (if (pushAttempts push a (List.range' 1 ReplicateMaxRetries)).1
                    then [self] ++ [a] else [self],
                  if (pushAttempts push a (List.range' 1 ReplicateMaxRetries)).1 then 1 + 1 else 1,
                  tr ++ Event.head a :: (pushAttempts push a (List.range' 1 ReplicateMaxRetries)).2)
            else replicateLoop self head push rest
                  (if (pushAttempts push a (List.range' 1 ReplicateMaxRetries)).1
                    then [self] ++ [a] else [self])
                  (if (pushAttempts push a (List.range' 1 ReplicateMaxRetries)).1 then 1 + 1 else 1)
                  (tr ++ Event.head a :: (pushAttempts push a (List.range' 1 ReplicateMaxRetries)).2) := by
        rw [replicateLoop]
        simp only [ha, hh', if_false, Bool.false_eq_true]
      generalize pushAttempts push a (List.range' 1 ReplicateMaxRetries) = r at hpeer hacc_eq hunf
      have hev : ∀ e ∈ Event.head a :: r.2, ∀ q, e.peer? = some q → q = a := by
        intro e he q hq
        rcases List.mem_cons.mp he with rfl | he
        · simpa [Event.peer?] using hq.symm
        · exact hpeer e he q hq
      have hpush : ∀ p k, Event.push p k ∈ Event.head a :: r.2 → p = a := by
        intro p k hp
        exact hev _ hp p rfl
      by_cases hs : r.1 = true
      · -- a push succeeded: stored, count reaches R
        have hacc : accepts head push a = true := by rw [hacc_eq, hs]
        refine ⟨Event.head a :: r.2, ?_, ?_, ?_, ?_⟩
        · rw [hunf]
          simp [hs, hRF, List.filter_cons, hacc]
        · intro e he q hq
          rw [hev e he q hq]
          exact List.mem_cons_self _ _
        · intro p k hp
          rw [hpush p k hp]
          exact hh'
        · intro pre p post hsplit _ hpre q hq e he
          cases pre with
          | nil =>
            simp only [List.nil_append, List.cons.injEq] at hsplit
            intro hc
            have := hev e he q hc
            subst this
            exact ha' (hsplit.2 ▸ hq)
          | cons x pre' =>
            simp only [List.cons_append, List.cons.injEq] at hsplit
            have := hpre x (List.mem_cons_self _ _)
            rw [← hsplit.1, hacc] at this
            exact absurd this (by simp)
      · -- every attempt failed: the loop goes on with the same state
        have hs' : r.1 = false := by simpa using hs
        have hacc : accepts head push a = false := by rw [hacc_eq, hs']
        obtain ⟨tr', hrun, hmem, hnopush, hafter⟩ := ih (tr ++ Event.head a :: r.2) hself' hnd'
        refine ⟨Event.head a :: r.2 ++ tr', ?_, ?_, ?_, ?_⟩
        · rw [hunf]
          simp only [hs', hRF, Bool.false_eq_true, if_false, List.filter_cons, hacc]
          simpa [hRF] using hrun
        · intro e he q hq
          rcases List.mem_append.mp he with he | he
          · rw [hev e he q hq]
            exact List.mem_cons_self _ _
          · exact List.mem_cons_of_mem _ (hmem e he q hq)
        · intro p k hp
          rcases List.mem_append.mp hp with hp | hp
          · rw [hpush p k hp]
            exact hh'
          · exact hnopush p k hp
        · intro pre p post hsplit hp hpre q hq e he
          cases pre with
          | nil =>
            simp only [List.nil_append, List.cons.injEq] at hsplit
            rw [← hsplit.1, hacc] at hp
            exact absurd hp (by simp)
          | cons x pre' =>
            simp only [List.cons_append, List.cons.injEq] at hsplit
            have hqrest : q ∈ rest := by
              rw [hsplit.2]
              exact List.mem_append_right _ (List.mem_cons_of_mem _ hq)
            rcases List.mem_append.mp he with he | he
            · intro hc
              have := hev e he q hc
              subst this
              exact ha' hqrest
            · exact hafter pre' p post hsplit.2 hp
                (fun y hy => hpre y (List.mem_cons_of_mem _ hy)) q hq e he

/-! ## Chunk store: claims -/

/-- C1 (chunk round-trip).  For a non-empty payload `b` of at most 100 MiB, any
user id and a filename equal to its own basename, starting from a store with no
chunk file in the target directory and with no I/O failure, `writeChunks`
succeeds with `⌈|b| / ChunkSize⌉` chunks (at most 100), and `reconstructToWriter`
on the same node, user and filename then appends exactly `b` to the sink and
returns `total = |b|` and no error. -/
theorem chunk_round_trip (env : Environ) (st : Store) (userID filename : String)
    (b sink : List Byte) (hne : b ≠ []) (hlen : b.length ≤ BodyLimit)
    (hbase : filepathBase filename = filename)
    (hempty : st (writeChunksDir env userID filename) = []) :
    ∃ w, writeChunks env noFaults st userID filename b = some w
      ∧ w.err = none ∧ w.count = chunkCount b.length ∧ w.count ≤ 100
      ∧ reconstructToWriter env noFaults w.store (getEnv env "NODE_ID" "s1") userID filename sink
          = some { sink := sink ++ b, total := b.length, err := none } := by
  have hpos : 0 < b.length := List.length_pos.mpr hne
  have hge := chunkCount_mul_ge b.length
  have hnot : ¬ chunkCount b.length * ChunkSize < b.length := by omega
  obtain ⟨w, hw, hcount, herr, hread⟩ :=
    write_then_read env noFaults st userID filename b sink (chunkCount b.length) hbase hempty rfl
      ((lt_chunkCount_iff _ _).mpr (by simpa using hpos))
      (fun i hi => (lt_chunkCount_iff _ _).mp hi) (fun _ _ => rfl) (fun h => absurd h hnot)
  refine ⟨w, hw, ?_, hcount, ?_, ?_⟩
  · rw [herr, if_neg hnot]
  · rw [hcount]
    by_contra hc
    have h100 : (100 : Nat) < chunkCount b.length := by omega
    have := (lt_chunkCount_iff _ _).mp h100
    have hb : BodyLimit = 100 * ChunkSize := by decide
    omega
  · rw [hread, List.take_of_length_le hge]

/-- Witness of C1: the three-byte payload `[1, 2, 3]` stored as `a.bin` for user `u1`. -/
theorem chunk_round_trip_witness :
    ([1, 2, 3] : List Byte) ≠ [] ∧ ([1, 2, 3] : List Byte).length ≤ BodyLimit
      ∧ filepathBase "a.bin" = "a.bin"
      ∧ emptyStore (writeChunksDir env0 "u1" "a.bin") = []
      ∧ ∃ w, writeChunks env0 noFaults emptyStore "u1" "a.bin" [1, 2, 3] = some w
        ∧ w.err = none ∧ w.count = chunkCount ([1, 2, 3] : List Byte).length ∧ w.count ≤ 100
        ∧ reconstructToWriter env0 noFaults w.store (getEnv env0 "NODE_ID" "s1") "u1" "a.bin" []
            = some { sink := [] ++ [1, 2, 3], total := ([1, 2, 3] : List Byte).length, err := none } :=
  ⟨by decide, by decide, by decide, rfl,
    chunk_round_trip env0 emptyStore "u1" "a.bin" [1, 2, 3] [] (by decide) (by decide)
      (by decide) rfl⟩

/-- C2 (chunk layout).  When neither the directory creation nor any write fails,
`writeChunks` returns `n = ⌈|b| / ChunkSize⌉` (0 for empty `b`) and no error;
afterwards chunk `i < n` of the target directory holds
`b[i*ChunkSize : min((i+1)*ChunkSize, |b|)]`, chunk files with index `≥ n` and
all other directories are as before; every written chunk is non-empty and has
at most `ChunkSize` bytes, and every chunk but the last has exactly `ChunkSize`. -/
theorem chunk_layout (env : Environ) (f : Faults) (st : Store) (userID filename : String)
    (b : List Byte) (hmk : f.mkdir = false) (hok : ∀ i, f.write i = false) :
    ∃ w, writeChunks env f st userID filename b = some w
      ∧ w.err = none
      ∧ w.count = (b.length + ChunkSize - 1) / ChunkSize
      ∧ (b = [] → w.count = 0)
      ∧ (∀ i, i < w.count →
          chunkAt (w.store (writeChunksDir env userID filename)) i
            = some (slice b (i * ChunkSize) (min ((i + 1) * ChunkSize) b.length)))
      ∧ (∀ i, w.count ≤ i →
          chunkAt (w.store (writeChunksDir env userID filename)) i
            = chunkAt (st (writeChunksDir env userID filename)) i)
      ∧ (∀ p, p ≠ writeChunksDir env userID filename → w.store p = st p)
      ∧ (∀ i, i < w.count →
          0 < (slice b (i * ChunkSize) (min ((i + 1) * ChunkSize) b.length)).length
          ∧ (slice b (i * ChunkSize) (min ((i + 1) * ChunkSize) b.length)).length ≤ ChunkSize
          ∧ (i + 1 < w.count →
              (slice b (i * ChunkSize) (min ((i + 1) * ChunkSize) b.length)).length = ChunkSize)) := by
  have hge := chunkCount_mul_ge b.length
  have hnot : ¬ chunkCount b.length * ChunkSize < b.length := by omega
  obtain ⟨w, hw, hcount, herr, hchunks, hother⟩ :=
    writeChunks_run env f st userID filename b (chunkCount b.length) hmk
      (fun i hi => (lt_chunkCount_iff _ _).mp hi) (fun i _ => hok i) (fun h => absurd h hnot)
  refine ⟨w, hw, ?_, hcount, ?_, ?_, ?_, hother, ?_⟩
  · rw [herr, if_neg hnot]
  · intro hb
    rw [hcount, hb]
    decide
  · intro i hi
    rw [hchunks i, if_pos (hcount ▸ hi), chunkOf_eq_slice_min]
  · intro i hi
    rw [hchunks i, if_neg (by omega)]
  · intro i hi
    rw [hcount] at hi
    have hlt := (lt_chunkCount_iff _ _).mp hi
    have hcs := ChunkSize_pos
    rw [← chunkOf_eq_slice_min, chunkOf_length]
    refine ⟨by omega, by omega, ?_⟩
    intro hnext
    rw [hcount] at hnext
    have := (lt_chunkCount_iff _ _).mp hnext
    rw [Nat.succ_mul] at this
    omega

/-- Witness of C2: the payload `[1, 2, 3]` written without failures to an empty store. -/
theorem chunk_layout_witness :
    noFaults.mkdir = false ∧ (∀ i, noFaults.write i = false)
      ∧ ∃ w, writeChunks env0 noFaults emptyStore "u1" "a.bin" [1, 2, 3] = some w
        ∧ w.err = none
        ∧ w.count = (([1, 2, 3] : List Byte).length + ChunkSize - 1) / ChunkSize
        ∧ (([1, 2, 3] : List Byte) = [] → w.count = 0)
        ∧ (∀ i, i < w.count →
            chunkAt (w.store (writeChunksDir env0 "u1" "a.bin")) i
              = some (slice [1, 2, 3] (i * ChunkSize)
                  (min ((i + 1) * ChunkSize) ([1, 2, 3] : List Byte).length)))
        ∧ (∀ i, w.count ≤ i →
            chunkAt (w.store (writeChunksDir env0 "u1" "a.bin")) i
              = chunkAt (emptyStore (writeChunksDir env0 "u1" "a.bin")) i)
        ∧ (∀ p, p ≠ writeChunksDir env0 "u1" "a.bin" → w.store p = emptyStore p)
        ∧ (∀ i, i < w.count →
            0 < (slice ([1, 2, 3] : List Byte) (i * ChunkSize)
                  (min ((i + 1) * ChunkSize) ([1, 2, 3] : List Byte).length)).length
            ∧ (slice ([1, 2, 3] : List Byte) (i * ChunkSize)
                  (min ((i + 1) * ChunkSize) ([1, 2, 3] : List Byte).length)).length ≤ ChunkSize
            ∧ (i + 1 < w.count →
                (slice ([1, 2, 3] : List Byte) (i * ChunkSize)
                  (min ((i + 1) * ChunkSize) ([1, 2, 3] : List Byte).length)).length
                  = ChunkSize)) :=
  ⟨rfl, fun _ => rfl,
    chunk_layout env0 noFaults emptyStore "u1" "a.bin" [1, 2, 3] rfl (fun _ => rfl)⟩

/-- C3 (basename safety on write), evaluated at the filenames `..` and `a/..`:
`filepath.Base` keeps `..`, so the directory `writeChunks` creates and writes
into is `/app/storage/s1`, the parent of the user directory `/app/storage/s1/u1`;
it is neither a direct child of the user directory nor below it, and the chunk
of the payload lands in `/app/storage/s1/0.chunk`. -/
theorem writeChunks_dotdot_leaves_user_dir :
    writeChunksDir env0 "u1" ".." = "/app/storage/s1"
      ∧ writeChunksDir env0 "u1" "a/.." = "/app/storage/s1"
      ∧ isDirectChild "/app/storage/s1/u1" (writeChunksDir env0 "u1" "..") = false
      ∧ isUnder "/app/storage/s1/u1" (writeChunksDir env0 "u1" "..") = false
      ∧ isUnder (writeChunksDir env0 "u1" "..") "/app/storage/s1/u1" = true
      ∧ (writeChunks env0 noFaults emptyStore "u1" ".." [1, 2, 3]).map
          (fun w => (w.count, w.err, w.store "/app/storage/s1"))
          = some (1, none, [(0, [1, 2, 3])])
      ∧ isDirectChild "/app/storage/s1/u1" (writeChunksDir env0 "u1" "dir/a.bin") = true :=
  ⟨by decide, by decide, by decide, by decide, by decide, by decide, by decide⟩

/-- C4 (basename safety on read, existence check and delete), evaluated at the
filename `../victim/f.txt` for user `u1`: the three functions join the filename
unreduced, so they address `/app/storage/s1/victim/f.txt`, which is not below
`/app/storage/s1/u1`; `hasAnyChunk` and `reconstructToWriter` serve the other
user's file and `deleteFile` removes it. -/
theorem read_and_delete_follow_dotdot :
    reconstructDir env0 "s1" "u1" "../victim/f.txt" = "/app/storage/s1/victim/f.txt"
      ∧ hasAnyChunkDir env0 "s1" "u1" "../victim/f.txt" = "/app/storage/s1/victim/f.txt"
      ∧ deleteFileDir env0 "s1" "u1" "../victim/f.txt" = "/app/storage/s1/victim/f.txt"
      ∧ filepathJoin ["/app/storage", "s1", "u1", filepathBase "../victim/f.txt"]
          = "/app/storage/s1/u1/f.txt"
      ∧ isUnder "/app/storage/s1/u1" (deleteFileDir env0 "s1" "u1" "../victim/f.txt") = false
      ∧ hasAnyChunk env0 victimStore "s1" "u1" "../victim/f.txt" = true
      ∧ reconstructToWriter env0 noFaults victimStore "s1" "u1" "../victim/f.txt" []
          = some { sink := [7, 8], total := 2, err := none }
      ∧ hasAnyChunk env0 victimStore "s1" "victim" "f.txt" = true
      ∧ hasAnyChunk env0 (deleteFile env0 victimStore "s1" "u1" "../victim/f.txt")
          "s1" "victim" "f.txt" = false :=
  ⟨by decide, by decide, by decide, by decide, by decide, by decide, by decide, by decide,
    by decide⟩

/-- C5 (read stops at the first gap).  For every directory state, with no I/O
failure, there is a least index `k` whose chunk file does not exist, and
`reconstructToWriter` returns: it has appended to the sink the concatenation of
the chunks `0 .. k-1` in index order, and its `total` is the number of bytes
written; the error is the no-chunks error exactly when nothing was written, in
particular when chunk 0 is missing, and there is no error otherwise; chunks of
index above `k` are ignored: any store that agrees on the indices `0 .. k` of
the directory gives the same result. -/
theorem reconstruct_stops_at_first_gap (env : Environ) (st : Store)
    (nodeID userID filename : String) (sink : List Byte) :
    ∃ k r, chunkAt (st (reconstructDir env nodeID userID filename)) k = none
      ∧ (∀ j, j < k → chunkAt (st (reconstructDir env nodeID userID filename)) j ≠ none)
      ∧ reconstructToWriter env noFaults st nodeID userID filename sink = some r
      ∧ r.sink = sink ++ catChunks (st (reconstructDir env nodeID userID filename)) k
      ∧ r.total = (catChunks (st (reconstructDir env nodeID userID filename)) k).length
      ∧ (r.err = some Err.noChunks ↔ r.total = 0)
      ∧ (r.err = none ↔ r.total ≠ 0)
      ∧ (k = 0 → r.err = some Err.noChunks)
      ∧ (∀ st' : Store,
          (∀ j, j ≤ k → chunkAt (st' (reconstructDir env nodeID userID filename)) j
            = chunkAt (st (reconstructDir env nodeID userID filename)) j) →
          reconstructToWriter env noFaults st' nodeID userID filename sink = some r) := by
  obtain ⟨k, hgap, hfull, hres⟩ := reconstructToWriter_run env st nodeID userID filename sink
  have hsame : ∀ st' : Store,
      (∀ j, j ≤ k → chunkAt (st' (reconstructDir env nodeID userID filename)) j
        = chunkAt (st (reconstructDir env nodeID userID filename)) j) →
      reconstructToWriter env noFaults st' nodeID userID filename sink
        = reconstructToWriter env noFaults st nodeID userID filename sink := by
    intro st' hagree
    obtain ⟨k', hgap', hfull', hres'⟩ :=
      reconstructToWriter_run env st' nodeID userID filename sink
    have hkk : k' = k :=
      first_gap_unique _ _ _ hgap' hfull' (by rw [hagree k (le_refl k)]; exact hgap)
        (fun j hj => by rw [hagree j (le_of_lt hj)]; exact hfull j hj)
    subst hkk
    rw [hres', hres, catChunks_congr _ _ k' (fun j hj => hagree j (le_of_lt hj))]
  by_cases h0 : (catChunks (st (reconstructDir env nodeID userID filename)) k).length = 0
  · rw [if_pos h0] at hres
    refine ⟨k, _, hgap, hfull, hres, rfl, h0.symm, by simp, by simp, fun _ => rfl, ?_⟩
    intro st' hagree
    rw [hsame st' hagree, hres]
  · rw [if_neg h0] at hres
    refine ⟨k, _, hgap, hfull, hres, rfl, rfl, by simp [h0], by simp [h0], ?_, ?_⟩
    · intro hk
      subst hk
      exact absurd rfl h0
    · intro st' hagree
      rw [hsame st' hagree, hres]

/-- C6 as stated fails: the payload of `ChunkSize + 1` zero bytes has two chunks;
when the write of chunk 1 fails, `writeChunks` returns `(1, error)` with only
chunk 0 on disk, and the following `reconstructToWriter` returns successfully
with the truncated content, the first `ChunkSize` bytes. -/
theorem truncated_write_is_served :
    chunkCount (List.replicate (ChunkSize + 1) (0 : Byte)).length = 2
      ∧ ∃ w, writeChunks env0 (failAt 1) emptyStore "u1" "a.bin"
            (List.replicate (ChunkSize + 1) 0) = some w
        ∧ w.count = 1 ∧ w.err = some Err.ioError
        ∧ reconstructToWriter env0 noFaults w.store "s1" "u1" "a.bin" []
            = some { sink := List.replicate ChunkSize 0, total := ChunkSize, err := none } := by
  have hlen : (List.replicate (ChunkSize + 1) (0 : Byte)).length = ChunkSize + 1 :=
    List.length_replicate _ _
  have hlt : 1 * ChunkSize < (List.replicate (ChunkSize + 1) (0 : Byte)).length := by
    rw [hlen]; omega
  refine ⟨by rw [hlen]; decide, ?_⟩
  obtain ⟨w, hw, hcount, herr, hread⟩ :=
    write_then_read env0 (failAt 1) emptyStore "u1" "a.bin"
      (List.replicate (ChunkSize + 1) 0) [] 1 (by decide) rfl rfl (by omega)
      (fun i hi => by
        have : i = 0 := by omega
        subst this
        rw [hlen]; omega)
      (fun i hi => by
        have : i = 0 := by omega
        subst this
        rfl)
      (fun _ => rfl)
  refine ⟨w, hw, hcount, ?_, ?_⟩
  · rw [herr, if_pos hlt]
  · have hnode : getEnv env0 "NODE_ID" "s1" = "s1" := by decide
    rw [hnode] at hread
    rw [hread]
    have htake : List.take (1 * ChunkSize) (List.replicate (ChunkSize + 1) (0 : Byte))
        = List.replicate ChunkSize 0 := by
      rw [List.take_replicate, Nat.one_mul, Nat.min_eq_left (Nat.le_succ _)]
    rw [htake]
    simp

/-- C6, amended.  When `writeChunks` into an empty directory fails at the write
of chunk `k` with `1 ≤ k < n` (the earlier writes succeed, so exactly the chunks
`0 .. k-1` exist), it returns `(k, error)`, and a following
`reconstructToWriter` of that file returns successfully, with no error: it
appends the first `k * ChunkSize` bytes of `b`, a proper initial part of `b`,
and returns `total = k * ChunkSize`. -/
theorem failed_write_serves_initial_part (env : Environ) (f : Faults) (st : Store)
    (userID filename : String) (b sink : List Byte) (k : Nat)
    (hbase : filepathBase filename = filename)
    (hempty : st (writeChunksDir env userID filename) = [])
    (hmk : f.mkdir = false) (hk1 : 1 ≤ k) (hkn : k < chunkCount b.length)
    (hok : ∀ i, i < k → f.write i = false) (hfail : f.write k = true) :
    ∃ w, writeChunks env f st userID filename b = some w
      ∧ w.count = k ∧ w.err = some Err.ioError
      ∧ (∀ i, chunkAt (w.store (writeChunksDir env userID filename)) i ≠ none ↔ i < k)
      ∧ reconstructToWriter env noFaults w.store (getEnv env "NODE_ID" "s1") userID filename sink
          = some { sink := sink ++ b.take (k * ChunkSize), total := k * ChunkSize, err := none }
      ∧ k * ChunkSize < b.length := by
  have hlt : k * ChunkSize < b.length := (lt_chunkCount_iff _ _).mp hkn
  have hk : ∀ i, i < k → i * ChunkSize < b.length := fun i hi =>
    (lt_chunkCount_iff _ _).mp (lt_trans hi hkn)
  obtain ⟨w, hw, hcount, herr, hread⟩ :=
    write_then_read env f st userID filename b sink k hbase hempty hmk hk1 hk hok (fun _ => hfail)
  obtain ⟨w', hw', -, -, hchunks, -⟩ :=
    writeChunks_run env f st userID filename b k hmk hk hok (fun _ => hfail)
  have hww : w' = w := Option.some.inj (hw'.symm.trans hw)
  subst hww
  refine ⟨w', hw, hcount, ?_, ?_, ?_, hlt⟩
  · rw [herr, if_pos hlt]
  · intro i
    rw [hchunks i]
    by_cases hi : i < k
    · simp [hi]
    · simp [hi, hempty, chunkAt]
  · rw [hread]
    have : (List.take (k * ChunkSize) b).length = k * ChunkSize := by
      rw [List.length_take]; omega
    rw [this]

/-- Witness of the amended C6: `ChunkSize + 1` zero bytes, the write of chunk 1 fails. -/
theorem failed_write_serves_initial_part_witness :
    filepathBase "a.bin" = "a.bin"
      ∧ emptyStore (writeChunksDir env0 "u1" "a.bin") = []
      ∧ (failAt 1).mkdir = false ∧ 1 ≤ 1
      ∧ 1 < chunkCount (List.replicate (ChunkSize + 1) (0 : Byte)).length
      ∧ (∀ i, i < 1 → (failAt 1).write i = false) ∧ (failAt 1).write 1 = true
      ∧ ∃ w, writeChunks env0 (failAt 1) emptyStore "u1" "a.bin"
            (List.replicate (ChunkSize + 1) 0) = some w
        ∧ w.count = 1 ∧ w.err = some Err.ioError
        ∧ (∀ i, chunkAt (w.store (writeChunksDir env0 "u1" "a.bin")) i ≠ none ↔ i < 1)
        ∧ reconstructToWriter env0 noFaults w.store (getEnv env0 "NODE_ID" "s1") "u1" "a.bin" []
            = some { sink := [] ++ (List.replicate (ChunkSize + 1) (0 : Byte)).take (1 * ChunkSize),
                     total := 1 * ChunkSize, err := none }
        ∧ 1 * ChunkSize < (List.replicate (ChunkSize + 1) (0 : Byte)).length :=
  have hn : 1 < chunkCount (List.replicate (ChunkSize + 1) (0 : Byte)).length := by
    rw [List.length_replicate]; decide
  have hok : ∀ i, i < 1 → (failAt 1).write i = false := fun i hi => by
    have : i = 0 := by omega
    subst this
    rfl
  ⟨by decide, rfl, rfl, le_refl 1, hn, hok, rfl,
    failed_write_serves_initial_part env0 (failAt 1) emptyStore "u1" "a.bin"
      (List.replicate (ChunkSize + 1) 0) [] 1 (by decide) rfl rfl (le_refl 1) hn hok rfl⟩

/-! ## Health, placement and replication: claims -/

/-- C7 (health grace).  For every peer URL, probe outcome, health map and clock
reading, `isNodeHealthy` returns true if and only if the probe answered with
status 200 or the map holds a last-success time for that peer less than 60 s
before now; a successful probe sets that peer's entry to the current time (and
no other entry), and a failed probe leaves the map unchanged. -/
theorem health_grace (m : HealthMap) (probe : ProbeResult) (now : Int) (url : String) :
    ((isNodeHealthy m probe now url).1 = true ↔
        (probe.failed = false ∧ probe.statusCode = 200)
          ∨ ∃ t, m url = some t ∧ now - t < 60 * 1000000000)
    ∧ ((probe.failed = false ∧ probe.statusCode = 200) →
        (isNodeHealthy m probe now url).2 url = some now
        ∧ ∀ u, u ≠ url → (isNodeHealthy m probe now url).2 u = m u)
    ∧ (¬ (probe.failed = false ∧ probe.statusCode = 200) →
        (isNodeHealthy m probe now url).2 = m) := by
  have hok : probe.ok = true ↔ (probe.failed = false ∧ probe.statusCode = 200) := by
    simp [ProbeResult.ok]
  unfold isNodeHealthy
  by_cases h : probe.ok = true
  · have h' := hok.mp h
    simp only [h, h', if_true, and_self, true_or, true_iff, not_true_eq_false, false_implies,
      and_true, true_implies, Function.update_same, true_and]
    intro u hu
    exact Function.update_noteq hu _ _
  · have h' : ¬ (probe.failed = false ∧ probe.statusCode = 200) := fun hc => h (hok.mpr hc)
    simp only [h, h', false_or, if_false, Bool.false_eq_true]
    cases hm : m url with
    | none => simp
    | some t =>
      by_cases ht : now - t < minute
      · simp [ht]
        simpa [minute] using ht
      · simp [ht]
        simpa [minute] using ht

/-- C8 (placement picks the least-loaded candidate).  For every health view and
per-node file counts, `chooseTargetNode` returns a member of the candidate list
`C = healthy peers ++ [self]` whose count is minimal over `C`; it is the first
candidate in iteration order with that count (everything before it has a
strictly larger count); a candidate with strictly fewer files than every other
one is the one returned; and with the counts `s1 = 5, s2 = 0, s3 = 2` seen from
`s1` the result is `s2`. -/
theorem placement_least_loaded_first (env : Environ) (healthy : List String)
    (count : String → Nat) :
    chooseTargetNode env healthy count ∈ healthy ++ [selfURL env]
    ∧ (∀ c ∈ healthy ++ [selfURL env], count (chooseTargetNode env healthy count) ≤ count c)
    ∧ (∃ pre post, healthy ++ [selfURL env] = pre ++ chooseTargetNode env healthy count :: post
        ∧ ∀ x ∈ pre, count (chooseTargetNode env healthy count) < count x)
    ∧ (∀ a ∈ healthy ++ [selfURL env],
        (∀ c ∈ healthy ++ [selfURL env], c ≠ a → count a < count c) →
        chooseTargetNode env healthy count = a)
    ∧ (getFileCount env0 s2Store s2Ls s2Files "http://s1:8080" "u1" = 5
        ∧ getFileCount env0 s2Store s2Ls s2Files "http://s2:8080" "u1" = 0
        ∧ getFileCount env0 s2Store s2Ls s2Files "http://s3:8080" "u1" = 2
        ∧ chooseTargetNode env0 ["http://s2:8080", "http://s3:8080"]
            (fun node => getFileCount env0 s2Store s2Ls s2Files node "u1") = "http://s2:8080") := by
  obtain ⟨pre, post, hsplit, hpre, hpost⟩ := chooseTargetNode_split env healthy count
  have hmem : chooseTargetNode env healthy count ∈ healthy ++ [selfURL env] := by
    rw [hsplit]
    exact List.mem_append_right _ (List.mem_cons_self _ _)
  have hmin : ∀ c ∈ healthy ++ [selfURL env],
      count (chooseTargetNode env healthy count) ≤ count c := by
    intro c hc
    rw [hsplit] at hc
    rcases List.mem_append.mp hc with h | h
    · exact le_of_lt (hpre c h)
    · rcases List.mem_cons.mp h with h | h
      · rw [h]
      · exact hpost c h
  refine ⟨hmem, hmin, ⟨pre, post, hsplit, hpre⟩, ?_, by decide, by decide, by decide, by decide⟩
  intro a ha hstrict
  by_contra hne
  have h1 := hstrict _ hmem hne
  have h2 := hmin a ha
  omega

/-- C9 as stated fails: on node `s1` with both peers healthy and every count
zero, `chooseTargetNode` does not return self. -/
theorem s1_placement_is_not_self :
    (getHealthyNodes env0 allUp hmap0).1 = ["http://s2:8080", "http://s3:8080"]
      ∧ selfURL env0 = "http://s1:8080"
      ∧ chooseTargetNode env0 (getHealthyNodes env0 allUp hmap0).1 (fun _ => 0) ≠ selfURL env0 :=
  ⟨by decide, by decide, by decide⟩

/-- C9, amended.  On node `s1` with both peers `s2` and `s3` answering their
probes with 200 and every candidate holding zero files for the user, the
candidates are iterated as `s2, s3, s1` and `chooseTargetNode` returns
`http://s2:8080`, the first of them, which is not self; the upload is therefore
forwarded to `s2`. -/
theorem s1_placement_first_peer (env : Environ) (h : HealthEnv) (m : HealthMap)
    (count : String → Nat) (hnode : getEnv env "NODE_ID" "s1" = "s1")
    (h2 : (h.probe "http://s2:8080").ok = true) (h3 : (h.probe "http://s3:8080").ok = true)
    (hz : ∀ node, count node = 0) :
    (getHealthyNodes env h m).1 = ["http://s2:8080", "http://s3:8080"]
      ∧ chooseTargetNode env (getHealthyNodes env h m).1 count = "http://s2:8080"
      ∧ chooseTargetNode env (getHealthyNodes env h m).1 count ≠ selfURL env := by
  have hhealthy : (getHealthyNodes env h m).1 = ["http://s2:8080", "http://s3:8080"] := by
    simp [getHealthyNodes, peersList, hnode, getHealthyFrom, isNodeHealthy, h2, h3]
  have hself : selfURL env = "http://s1:8080" := by
    rw [selfURL, hnode]
    decide
  have hchoose : chooseTargetNode env ["http://s2:8080", "http://s3:8080"] count
      = "http://s2:8080" := by
    simp [chooseTargetNode, minNode, hz]
  rw [hhealthy, hchoose, hself]
  exact ⟨rfl, rfl, by decide⟩

/-- Witness of the amended C9: no environment variable set, every probe answers 200. -/
theorem s1_placement_first_peer_witness :
    getEnv env0 "NODE_ID" "s1" = "s1"
      ∧ (allUp.probe "http://s2:8080").ok = true ∧ (allUp.probe "http://s3:8080").ok = true
      ∧ (∀ node : String, (fun _ : String => (0 : Nat)) node = 0)
      ∧ (getHealthyNodes env0 allUp hmap0).1 = ["http://s2:8080", "http://s3:8080"]
      ∧ chooseTargetNode env0 (getHealthyNodes env0 allUp hmap0).1 (fun _ => 0) = "http://s2:8080"
      ∧ chooseTargetNode env0 (getHealthyNodes env0 allUp hmap0).1 (fun _ => 0) ≠ selfURL env0 :=
  ⟨by decide, by decide, by decide, fun _ => rfl,
    s1_placement_first_peer env0 allUp hmap0 (fun _ => 0) (by decide) (by decide) (by decide)
      (fun _ => rfl)⟩

/-- C10 (replicator result).  For every list of distinct healthy peers, none
equal to self, and every outcome of HEAD and of the pushes, with
`ReplicationFactor = 2`: `replicateToPeers` returns `[self]` followed by the
first `R - 1` healthy peers, in list order, on which HEAD reports the file
present or some attempt `1 .. 3` to push succeeds; the result has between 1 and
`R` entries and no duplicates; once the count has reached `R` at a peer, no
peer after it in the list is contacted; a peer whose HEAD is true receives no
push; only healthy peers are contacted; and with no healthy peer the result is
`[self]` with no network action. -/
theorem replicator_result (env : Environ) (healthy : List String) (head : String → Bool)
    (push : String → Nat → Bool) (hself : selfURL env ∉ healthy) (hnd : healthy.Nodup) :
    ReplicationFactor = 2
    ∧ (replicateToPeers env healthy head push).1
        = selfURL env :: (healthy.filter (accepts head push)).take (ReplicationFactor - 1)
    ∧ 1 ≤ (replicateToPeers env healthy head push).1.length
    ∧ (replicateToPeers env healthy head push).1.length ≤ ReplicationFactor
    ∧ (replicateToPeers env healthy head push).1.Nodup
    ∧ (∀ pre p post, healthy = pre ++ p :: post → accepts head push p = true →
        (∀ x ∈ pre, accepts head push x = false) →
        ∀ q ∈ post, ∀ e ∈ (replicateToPeers env healthy head push).2, e.peer? ≠ some q)
    ∧ (∀ p k, head p = true → Event.push p k ∉ (replicateToPeers env healthy head push).2)
    ∧ (∀ e ∈ (replicateToPeers env healthy head push).2, ∀ q, e.peer? = some q → q ∈ healthy)
    ∧ replicateToPeers env [] head push = ([selfURL env], []) := by
  obtain ⟨tr', hrun, hmem, hnopush, hafter⟩ :=
    replicateLoop_spec (selfURL env) head push healthy [] hself hnd
  have h1 : (replicateToPeers env healthy head push).1
      = selfURL env :: (healthy.filter (accepts head push)).take (ReplicationFactor - 1) := by
    simp only [replicateToPeers, hrun]
  have h2 : (replicateToPeers env healthy head push).2 = tr' := by
    simp only [replicateToPeers, hrun, List.nil_append]
  have hsub : ((healthy.filter (accepts head push)).take (ReplicationFactor - 1)).Sublist healthy :=
    (List.take_sublist _ _).trans (List.filter_sublist _)
  refine ⟨rfl, h1, ?_, ?_, ?_, ?_, ?_, ?_, ?_⟩
  · rw [h1]
    simp
  · rw [h1]
    have := List.length_take_le (ReplicationFactor - 1) (healthy.filter (accepts head push))
    have hRF : ReplicationFactor = 2 := rfl
    simp only [List.length_cons]
    omega
  · rw [h1]
    refine List.nodup_cons.mpr ⟨fun hin => hself (hsub.subset hin), hnd.sublist hsub⟩
  · rw [h2]
    exact hafter
  · rw [h2]
    intro p k hp hin
    have := hnopush p k hin
    rw [hp] at this
    exact absurd this (by simp)
  · rw [h2]
    exact hmem
  · rfl

/-- Witness of C10: node `s1` with healthy peers `s2, s3`, no peer holds the file,
every push succeeds. -/
theorem replicator_result_witness :
    selfURL env0 ∉ ["http://s2:8080", "http://s3:8080"]
    ∧ ["http://s2:8080", "http://s3:8080"].Nodup
    ∧ (replicateToPeers env0 ["http://s2:8080", "http://s3:8080"]
          (fun _ => false) (fun _ _ => true)).1
        = selfURL env0 :: ((["http://s2:8080", "http://s3:8080"].filter
            (accepts (fun _ => false) (fun _ _ => true))).take (ReplicationFactor - 1))
    ∧ (replicateToPeers env0 ["http://s2:8080", "http://s3:8080"]
          (fun _ => false) (fun _ _ => true)).1 = ["http://s1:8080", "http://s2:8080"] :=
  ⟨by decide, by decide,
    (replicator_result env0 ["http://s2:8080", "http://s3:8080"] (fun _ => false)
      (fun _ _ => true) (by decide) (by decide)).2.1,
    by decide⟩

/-! ## Replicator runs in succession: lemmas -/

theorem transfers_append (push : String → Nat → Bool) (l₁ l₂ : List Event) (p : String) :
    transfers push (l₁ ++ l₂) p = transfers push l₁ p + transfers push l₂ p := by
  simp [transfers, List.filter_append]

theorem transfers_head (push : String → Nat → Bool) (a : String) (l : List Event) (p : String) :
    transfers push (Event.head a :: l) p = transfers push l p := by
  simp [transfers, List.filter_cons]

theorem pushAttempts_transfers (push : String → Nat → Bool) (a : String) (l : List Nat)
    (p : String) :
    transfers push (pushAttempts push a l).2 p
      = if p = a ∧ (pushAttempts push a l).1 = true then 1 else 0 := by
  induction l with
  | nil => simp [pushAttempts, transfers]
  | cons k l ih =>
    simp only [pushAttempts]
    by_cases h : push a k = true
    · simp only [h, if_true]
      by_cases hp : a = p
      · subst hp
        simp [transfers, List.filter_cons, h]
      · have hp' : ¬ p = a := fun hc => hp hc.symm
        simp [transfers, List.filter_cons, hp, hp']
    · have hf : push a k = false := by simpa using h
      simp only [hf, Bool.false_eq_true, if_false]
      rw [← ih]
      simp [transfers, List.filter_cons, hf]

theorem replicateLoop_cons_push (self : String) (head : String → Bool)
    (push : String → Nat → Bool) (a : String) (rest stored : List String) (count : Nat)
    (tr : List Event) (ha : a ≠ self) (hh : head a = false) :
    replicateLoop self head push (a :: rest) stored count tr
      = if (if (pushAttempts push a (List.range' 1 ReplicateMaxRetries)).1 then count + 1 else count)
            ≥ ReplicationFactor
        then (if (pushAttempts push a (List.range' 1 ReplicateMaxRetries)).1
                then stored ++ [a] else stored,
              if (pushAttempts push a (List.range' 1 ReplicateMaxRetries)).1 then count + 1
                else count,
              tr ++ Event.head a :: (pushAttempts push a (List.range' 1 ReplicateMaxRetries)).2)
        else replicateLoop self head push rest
              (if (pushAttempts push a (List.range' 1 ReplicateMaxRetries)).1
                then stored ++ [a] else stored)
              (if (pushAttempts push a (List.range' 1 ReplicateMaxRetries)).1 then count + 1
                else count)
              (tr ++ Event.head a :: (pushAttempts push a (List.range' 1 ReplicateMaxRetries)).2) := by
  rw [replicateLoop]
  simp only [ha, hh, if_false, Bool.false_eq_true]

theorem replicateLoop_transfers (self : String) (head : String → Bool)
    (push : String → Nat → Bool) :
    ∀ (healthy : List String) (tr : List Event), self ∉ healthy →
      ∃ tr', replicateLoop self head push healthy [self] 1 tr
          = (self :: (healthy.filter (accepts head push)).take (ReplicationFactor - 1),
             1 + ((healthy.filter (accepts head push)).take (ReplicationFactor - 1)).length,
             tr ++ tr')
        ∧ ∀ p, transfers push tr' p
            = if head p = false
                ∧ p ∈ (healthy.filter (accepts head push)).take (ReplicationFactor - 1)
              then 1 else 0 := by
  intro healthy
  induction healthy with
  | nil =>
    intro tr _
    exact ⟨[], by simp [replicateLoop], by simp [transfers]⟩
  | cons a rest ih =>
    intro tr hself
    have ha : a ≠ self := fun h => hself (h ▸ List.mem_cons_self _ _)
    have hself' : self ∉ rest := fun h => hself (List.mem_cons_of_mem _ h)
    have hRF : ReplicationFactor = 2 := rfl
    by_cases hh : head a = true
    · have hacc : accepts head push a = true := by simp [accepts, hh]
      refine ⟨[Event.head a], ?_, ?_⟩
      · simp [replicateLoop, ha, hh, hRF, List.filter_cons, hacc]
      · intro p
        simp only [hRF, List.filter_cons, hacc, if_true, Nat.add_one_sub_one, List.take_succ_cons,
          List.take_zero, List.mem_singleton]
        rw [transfers_head]
        by_cases hp : p = a
        · subst hp
          simp [transfers, hh]
        · simp [transfers, hp]
    · have hh' : head a = false := by simpa using hh
      have hunf := replicateLoop_cons_push self head push a rest [self] 1 tr ha hh'
      have hfst := pushAttempts_fst push a (List.range' 1 ReplicateMaxRetries)
      have htr := pushAttempts_transfers push a (List.range' 1 ReplicateMaxRetries)
      have hacc_eq : accepts head push a
          = (pushAttempts push a (List.range' 1 ReplicateMaxRetries)).1 := by
        simp [accepts, hh', hfst]
      generalize pushAttempts push a (List.range' 1 ReplicateMaxRetries) = r at hunf hacc_eq htr
      by_cases hs : r.1 = true
      · have hacc : accepts head push a = true := by rw [hacc_eq, hs]
        refine ⟨Event.head a :: r.2, ?_, ?_⟩
        · rw [hunf]
          simp [hs, hRF, List.filter_cons, hacc]
        · intro p
          simp only [hRF, List.filter_cons, hacc, if_true, Nat.add_one_sub_one,
            List.take_succ_cons, List.take_zero, List.mem_singleton]
          rw [transfers_head, htr p]
          by_cases hp : p = a
          · subst hp
            simp [hs, hh']
          · simp [hp]
      · have hs' : r.1 = false := by simpa using hs
        have hacc : accepts head push a = false := by rw [hacc_eq, hs']
        obtain ⟨tr', hrun, htrans⟩ := ih (tr ++ Event.head a :: r.2) hself'
        refine ⟨Event.head a :: r.2 ++ tr', ?_, ?_⟩
        · rw [hunf]
          simp only [hs', hRF, Bool.false_eq_true, if_false, List.filter_cons, hacc]
          simpa [hRF] using hrun
        · intro p
          rw [transfers_append, transfers_head, htr p, htrans p]
          simp [hs', List.filter_cons, hacc]

theorem replicateToPeers_transfers (env : Environ) (healthy : List String)
    (head : String → Bool) (push : String → Nat → Bool) (hself : selfURL env ∉ healthy) :
    (replicateToPeers env healthy head push).1
        = selfURL env :: (healthy.filter (accepts head push)).take (ReplicationFactor - 1)
    ∧ ∀ p, transfers push (replicateToPeers env healthy head push).2 p
        = if head p = false
            ∧ p ∈ (healthy.filter (accepts head push)).take (ReplicationFactor - 1)
          then 1 else 0 := by
  obtain ⟨tr', hrun, htrans⟩ := replicateLoop_transfers (selfURL env) head push healthy [] hself
  have h2 : (replicateToPeers env healthy head push).2 = tr' := by
    simp only [replicateToPeers, hrun, List.nil_append]
  refine ⟨by simp only [replicateToPeers, hrun], ?_⟩
  rw [h2]
  exact htrans

theorem replicateToPeers_pushes (env : Environ) (healthy : List String)
    (head : String → Bool) (push : String → Nat → Bool) (hself : selfURL env ∉ healthy)
    (hnd : healthy.Nodup) :
    (∀ p k, Event.push p k ∈ (replicateToPeers env healthy head push).2 → head p = false)
    ∧ (∀ e ∈ (replicateToPeers env healthy head push).2, ∀ q, e.peer? = some q → q ∈ healthy) := by
  obtain ⟨tr', hrun, hmem, hnopush, -⟩ :=
    replicateLoop_spec (selfURL env) head push healthy [] hself hnd
  have h2 : (replicateToPeers env healthy head push).2 = tr' := by
    simp only [replicateToPeers, hrun, List.nil_append]
  rw [h2]
  exact ⟨hnopush, hmem⟩

theorem accepts_headAfter (env : Environ) (healthy : List String) (head : String → Bool)
    (push : String → Nat → Bool) (hself : selfURL env ∉ healthy) :
    accepts (headAfter head push (replicateToPeers env healthy head push).2) push
      = accepts head push := by
  funext p
  have htr := (replicateToPeers_transfers env healthy head push hself).2 p
  unfold accepts headAfter
  by_cases hpos : 0 < transfers push (replicateToPeers env healthy head push).2 p
  · rw [htr] at hpos
    split at hpos
    · rename_i hc
      have hin := List.mem_of_mem_take hc.2
      have hacc : accepts head push p = true := (List.mem_filter.mp hin).2
      unfold accepts at hacc
      simp only [hc.1, Bool.false_or] at hacc
      simp [hacc]
    · omega
  · simp [hpos]

/-! ## Reconciler: lemmas -/

theorem leChars_total : ∀ a b : List Char, leChars a b = true ∨ leChars b a = true := by
  intro a
  induction a with
  | nil => intro b; left; simp [leChars]
  | cons x xs ih =>
    intro b
    cases b with
    | nil => right; simp [leChars]
    | cons y ys =>
      simp only [leChars]
      by_cases h1 : x.toNat < y.toNat
      · left; simp [h1]
      · by_cases h2 : y.toNat < x.toNat
        · right; simp [h2]
        · simp only [h1, h2, if_false]
          exact ih ys

theorem leChars_antisymm : ∀ a b : List Char, leChars a b = true → leChars b a = true → a = b := by
  intro a
  induction a with
  | nil =>
    intro b _ h2
    cases b with
    | nil => rfl
    | cons y ys => simp [leChars] at h2
  | cons x xs ih =>
    intro b h1 h2
    cases b with
    | nil => simp [leChars] at h1
    | cons y ys =>
      simp only [leChars] at h1 h2
      by_cases hxy : x.toNat < y.toNat
      · have : ¬ y.toNat < x.toNat := by omega
        simp [hxy, this] at h2
      · by_cases hyx : y.toNat < x.toNat
        · simp [hxy, hyx] at h1
        · simp only [hxy, hyx, if_false] at h1 h2
          have hval : x.val = y.val := by
            apply UInt32.ext
            have : x.toNat = y.toNat := by omega
            exact this
          rw [Char.ext hval, ih ys h1 h2]

theorem leChars_trans : ∀ a b c : List Char,
    leChars a b = true → leChars b c = true → leChars a c = true := by
  intro a
  induction a with
  | nil => intro b c _ _; simp [leChars]
  | cons x xs ih =>
    intro b c h1 h2
    cases b with
    | nil => simp [leChars] at h1
    | cons y ys =>
      cases c with
      | nil => simp [leChars] at h2
      | cons z zs =>
        simp only [leChars] at h1 h2 ⊢
        by_cases hxz : x.toNat < z.toNat
        · simp [hxz]
        · by_cases hxy : x.toNat < y.toNat
          · have hzy : z.toNat < y.toNat := by omega
            have : ¬ y.toNat < z.toNat := by omega
            simp [this, hzy] at h2
          · by_cases hyx : y.toNat < x.toNat
            · simp [hxy, hyx] at h1
            · simp only [hxy, hyx, if_false] at h1
              by_cases hyz : y.toNat < z.toNat
              · omega
              · by_cases hzy : z.toNat < y.toNat
                · simp [hyz, hzy] at h2
                · simp only [hyz, hzy, if_false] at h2
                  have hzx : ¬ z.toNat < x.toNat := by omega
                  simp only [hxz, hzx, if_false]
                  exact ih ys zs h1 h2

theorem sortStrings_perm (l : List String) : (sortStrings l).Perm l :=
  List.perm_insertionSort _ l

theorem sortStrings_sorted (l : List String) :
    (sortStrings l).Sorted (fun a b => strLe a b = true) := by
  haveI : IsTotal String (fun a b => strLe a b = true) := ⟨fun a b => leChars_total a.data b.data⟩
  haveI : IsTrans String (fun a b => strLe a b = true) :=
    ⟨fun a b c h1 h2 => leChars_trans a.data b.data c.data h1 h2⟩
  exact List.sorted_insertionSort _ l

theorem sortStrings_congr (l₁ l₂ : List String) (h : l₁.Perm l₂) :
    sortStrings l₁ = sortStrings l₂ := by
  haveI : IsAntisymm String (fun a b => strLe a b = true) :=
    ⟨fun a b h1 h2 => by
      have := leChars_antisymm a.data b.data h1 h2
      cases a; cases b; simp_all⟩
  exact List.eq_of_perm_of_sorted
    (((sortStrings_perm l₁).trans h).trans (sortStrings_perm l₂).symm)
    (sortStrings_sorted l₁) (sortStrings_sorted l₂)

theorem contains_iff (l : List String) (s : String) : contains l s = true ↔ s ∈ l := by
  induction l with
  | nil => simp [contains]
  | cons v rest ih =>
    simp only [contains, List.mem_cons]
    by_cases h : v = s
    · simp [h]
    · have h' : ¬ s = v := fun hc => h hc.symm
      simp [h, h', ih]

theorem deleteLocalLoop_events (env : Environ) (dirExists : String → Bool) (rmFails : Bool)
    (st : Store) (filename nodeRoot : String) (users : List (String × Bool)) :
    ∀ e ∈ (deleteLocalLoop env dirExists rmFails st filename nodeRoot users).2,
      ∃ u, e = SyncEvent.removeLocal u filename := by
  induction users with
  | nil => intro e he; simp [deleteLocalLoop] at he
  | cons u rest ih =>
    intro e he
    rw [deleteLocalLoop] at he
    split at he
    · exact ih e he
    · split at he
      · exact ih e he
      · split at he
        · simp at he
        · simp only [List.mem_singleton] at he
          exact ⟨u.1, he⟩

theorem deleteRemoteLoop_events (del : String → String → String → HttpResult)
    (nodeURL filename : String) (users : List MetaRecord) :
    ∀ e ∈ deleteRemoteLoop del nodeURL filename users,
      ∃ d, d ∈ users ∧ d.fileName = filename
        ∧ e = SyncEvent.deleteRequest nodeURL filename d.userId (del nodeURL filename d.userId) := by
  induction users with
  | nil => intro e he; simp [deleteRemoteLoop] at he
  | cons d rest ih =>
    intro e he
    rw [deleteRemoteLoop] at he
    split at he
    · rename_i hname
      split at he
      · rename_i hres
        rcases List.mem_cons.mp he with he | he
        · exact ⟨d, List.mem_cons_self _ _, hname, by rw [he, hres]⟩
        · obtain ⟨d', hd', hn', he'⟩ := ih e he
          exact ⟨d', List.mem_cons_of_mem _ hd', hn', he'⟩
      · rename_i code hres
        simp only [List.mem_singleton] at he
        exact ⟨d, List.mem_cons_self _ _, hname, by rw [he, hres]⟩
    · obtain ⟨d', hd', hn', he'⟩ := ih e he
      exact ⟨d', List.mem_cons_of_mem _ hd', hn', he'⟩

theorem deleteFileOnNode_target (env : Environ) (w : SyncEnv) (st : Store)
    (nodeURL filename : String) :
    ∀ e ∈ (deleteFileOnNode env w st nodeURL filename).2,
      e.deleteTarget (selfURL env) = some nodeURL := by
  intro e he
  unfold deleteFileOnNode at he
  by_cases hself : nodeURL = selfURL env
  · simp only [hself, if_true] at he
    cases hls : w.ls (filepathJoin [storageRoot env, getEnv env "NODE_ID" "s1"]) with
    | none => simp [hls] at he
    | some users =>
      simp only [hls] at he
      obtain ⟨u, hu⟩ := deleteLocalLoop_events _ _ _ _ _ _ _ e he
      rw [hu, hself]
      rfl
  · simp only [hself, if_false] at he
    cases hdb : getUserFilesFromFirebase w.db "" with
    | none => simp [hdb] at he
    | some users =>
      simp only [hdb] at he
      obtain ⟨d, -, -, hd⟩ := deleteRemoteLoop_events _ _ _ _ e he
      rw [hd]
      rfl

theorem deleteEach_target (env : Environ) (w : SyncEnv) (filename : String) :
    ∀ (nodes : List String) (st : Store) (ev : List SyncEvent),
      ∀ e ∈ (deleteEach env w filename nodes st ev).2,
        e ∈ ev ∨ ∃ n ∈ nodes, e.deleteTarget (selfURL env) = some n := by
  intro nodes
  induction nodes with
  | nil => intro st ev e he; left; simpa [deleteEach] using he
  | cons n rest ih =>
    intro st ev e he
    rw [deleteEach] at he
    rcases ih _ _ e he with h | ⟨n', hn', ht⟩
    · rcases List.mem_append.mp h with h | h
      · left; exact h
      · right
        exact ⟨n, List.mem_cons_self _ _, deleteFileOnNode_target env w st n filename e h⟩
    · right
      exact ⟨n', List.mem_cons_of_mem _ hn', ht⟩

theorem writeChunks_frame (env : Environ) (f : Faults) (st : Store) (userID filename : String)
    (data : List Byte) (r : WriteResult) (h : writeChunks env f st userID filename data = some r) :
    ∀ p, p ≠ writeChunksDir env userID filename → r.store p = st p := by
  intro p hp
  unfold writeChunks at h
  by_cases hmk : f.mkdir = true
  · simp only [hmk, if_true, Option.some.injEq] at h
    rw [← h]
  · simp only [hmk, if_false, Bool.false_eq_true, Option.map_eq_some'] at h
    obtain ⟨a, -, ha⟩ := h
    rw [← ha]
    exact Function.update_noteq hp _ _

theorem writeChunks_noFaults (env : Environ) (st : Store) (userID filename : String)
    (data : List Byte) :
    ∃ r, writeChunks env noFaults st userID filename data = some r ∧ r.err = none
      ∧ (data ≠ [] → r.store (writeChunksDir env userID filename) ≠ []) := by
  have hge := chunkCount_mul_ge data.length
  have hnot : ¬ chunkCount data.length * ChunkSize < data.length := by omega
  obtain ⟨r, hr, -, herr, hchunks, -⟩ :=
    writeChunks_run env noFaults st userID filename data (chunkCount data.length) rfl
      (fun i hi => (lt_chunkCount_iff _ _).mp hi) (fun _ _ => rfl) (fun h => absurd h hnot)
  refine ⟨r, hr, by rw [herr, if_neg hnot], ?_⟩
  intro hne hempty
  have hpos : 0 < chunkCount data.length :=
    (lt_chunkCount_iff _ _).mpr (by simpa using List.length_pos.mpr hne)
  have h0 := hchunks 0
  rw [if_pos hpos, hempty] at h0
  simp [chunkAt] at h0

theorem repairLoop_run (env : Environ) (w : SyncEnv) (f : Faults) (u fname : String)
    (data : List Byte) :
    ∀ (targets : List String) (st : Store) (nList : List String) (ev : List SyncEvent),
      ∃ st' ev', repairLoop env w f u fname data targets st nList ev
          = some (st',
              nList ++ targets.filter (fun t => decide (t = selfURL env) || w.push t u fname),
              ev ++ ev')
        ∧ (∀ p, p ≠ writeChunksDir env u fname → st' p = st p)
        ∧ (selfURL env ∉ targets → st' = st)
        ∧ (∀ e ∈ ev', ∃ t ∈ targets, t ≠ selfURL env
            ∧ e = SyncEvent.push t u fname (w.push t u fname))
        ∧ (∀ t ∈ targets, t ≠ selfURL env →
            SyncEvent.push t u fname (w.push t u fname) ∈ ev') := by
  intro targets
  induction targets with
  | nil =>
    intro st nList ev
    exact ⟨st, [], by simp [repairLoop], fun _ _ => rfl, fun _ => rfl, by simp, by simp⟩
  | cons t rest ih =>
    intro st nList ev
    by_cases hself : t = selfURL env
    · obtain ⟨r, hr⟩ := Option.isSome_iff_exists.mp (writeChunks_returns env f st u fname data)
      obtain ⟨st', ev', hrun, hframe, -, hev, hall⟩ := ih r.store (nList ++ [t]) ev
      refine ⟨st', ev', ?_, ?_, ?_, ?_, ?_⟩
      · rw [repairLoop]
        simp only [hself, if_true, hr, Option.some_bind]
        rw [hself] at hrun
        rw [hrun]
        simp [List.filter_cons]
      · intro p hp
        rw [hframe p hp, writeChunks_frame env f st u fname data r hr p hp]
      · intro hnot
        exact absurd (hself ▸ List.mem_cons_self _ _) hnot
      · intro e he
        obtain ⟨t', ht', hne, heq⟩ := hev e he
        exact ⟨t', List.mem_cons_of_mem _ ht', hne, heq⟩
      · intro t' ht' hne
        rcases List.mem_cons.mp ht' with h | h
        · exact absurd (h.trans hself) hne
        · exact hall t' h hne
    · by_cases hp : w.push t u fname = true
      · obtain ⟨st', ev', hrun, hframe, hsame, hev, hall⟩ :=
          ih st (nList ++ [t]) (ev ++ [SyncEvent.push t u fname true])
        refine ⟨st', SyncEvent.push t u fname true :: ev', ?_, hframe, ?_, ?_, ?_⟩
        · rw [repairLoop]
          simp only [hself, if_false, hp, if_true]
          rw [hrun]
          simp [List.filter_cons, hp]
        · intro hnot
          exact hsame (fun h => hnot (List.mem_cons_of_mem _ h))
        · intro e he
          rcases List.mem_cons.mp he with he | he
          · exact ⟨t, List.mem_cons_self _ _, hself, by rw [he, hp]⟩
          · obtain ⟨t', ht', hne, heq⟩ := hev e he
            exact ⟨t', List.mem_cons_of_mem _ ht', hne, heq⟩
        · intro t' ht' hne
          rcases List.mem_cons.mp ht' with h | h
          · rw [h, hp]
            exact List.mem_cons_self _ _
          · exact List.mem_cons_of_mem _ (hall t' h hne)
      · have hp' : w.push t u fname = false := by simpa using hp
        obtain ⟨st', ev', hrun, hframe, hsame, hev, hall⟩ :=
          ih st nList (ev ++ [SyncEvent.push t u fname false])
        refine ⟨st', SyncEvent.push t u fname false :: ev', ?_, hframe, ?_, ?_, ?_⟩
        · rw [repairLoop]
          simp only [hself, if_false, hp', Bool.false_eq_true]
          rw [hrun]
          simp [List.filter_cons, hp', hself]
        · intro hnot
          exact hsame (fun h => hnot (List.mem_cons_of_mem _ h))
        · intro e he
          rcases List.mem_cons.mp he with he | he
          · exact ⟨t, List.mem_cons_self _ _, hself, by rw [he, hp']⟩
          · obtain ⟨t', ht', hne, heq⟩ := hev e he
            exact ⟨t', List.mem_cons_of_mem _ ht', hne, heq⟩
        · intro t' ht' hne
          rcases List.mem_cons.mp ht' with h | h
          · rw [h, hp']
            exact List.mem_cons_self _ _
          · exact List.mem_cons_of_mem _ (hall t' h hne)

/-- A repair whose download succeeds (the GET returns `data` and the local
`writeChunks` reports no error). -/
theorem repairUnder_downloaded (env : Environ) (w : SyncEnv) (fDl fTg : Faults) (st : Store)
    (healthy : List String) (f u src : String) (more : List String) (data : List Byte)
    (wr : WriteResult) (hget : w.get src u f = some data)
    (hwr : writeChunks env fDl st u f data = some wr) (herr : wr.err = none) :
    ∃ r, repairUnder env w fDl fTg st healthy f u (src :: more) = some r
      ∧ r.holders = (src :: more)
          ++ (repairTargets env healthy (src :: more)).filter
              (fun t => decide (t = selfURL env) || w.push t u f)
      ∧ r.toDelete = []
      ∧ r.events.head? = some (SyncEvent.download src u f)
      ∧ (∀ e ∈ r.events, e = SyncEvent.download src u f
          ∨ ∃ t ∈ repairTargets env healthy (src :: more), t ≠ selfURL env
              ∧ e = SyncEvent.push t u f (w.push t u f))
      ∧ (∀ t ∈ repairTargets env healthy (src :: more), t ≠ selfURL env →
          SyncEvent.push t u f (w.push t u f) ∈ r.events)
      ∧ (∀ p, p ≠ writeChunksDir env u f → r.store p = st p)
      ∧ (selfURL env ∉ repairTargets env healthy (src :: more) → r.store = wr.store) := by
  obtain ⟨st', ev', hrun, hframe, hsame, hev, hall⟩ :=
    repairLoop_run env w fTg u f data (repairTargets env healthy (src :: more)) wr.store
      (src :: more) [SyncEvent.download src u f]
  refine ⟨{ store := st',
             holders := (src :: more)
               ++ (repairTargets env healthy (src :: more)).filter
                   (fun t => decide (t = selfURL env) || w.push t u f),
             toDelete := [], events := [SyncEvent.download src u f] ++ ev' },
    ?_, rfl, rfl, ?_, ?_, ?_, ?_, ?_⟩
  · simp only [repairUnder, downloadFileFromPeer, hget, hwr, Option.map_some', Option.some_bind,
      herr, Option.isSome_none, Bool.false_eq_true, if_false, hrun]
  · rfl
  · intro e he
    rcases List.mem_append.mp he with h | h
    · left; simpa using h
    · right; exact hev e h
  · intro t ht hne
    exact List.mem_append_right _ (hall t ht hne)
  · intro p hp
    show st' p = st p
    rw [hframe p hp, writeChunks_frame env fDl st u f data wr hwr p hp]
  · intro hnot
    exact hsame hnot

theorem getHealthyFrom_all_ok (h : HealthEnv) (hup : ∀ p, (h.probe p).ok = true) :
    ∀ (peers : List String) (m : HealthMap), (getHealthyFrom h peers m).1 = peers := by
  intro peers
  induction peers with
  | nil => intro m; rfl
  | cons p rest ih =>
    intro m
    simp [getHealthyFrom, isNodeHealthy, hup p, ih]

theorem hasAnyChunk_after_write (env : Environ) (st : Store) (u f : String)
    (hbase : filepathBase f = f) (hne : st (writeChunksDir env u f) ≠ []) :
    hasAnyChunk env st (getEnv env "NODE_ID" "s1") u f = true := by
  have hdir : hasAnyChunkDir env (getEnv env "NODE_ID" "s1") u f = writeChunksDir env u f := by
    unfold hasAnyChunkDir writeChunksDir
    simp only [hbase]
  unfold hasAnyChunk
  rw [hdir]
  cases hst : st (writeChunksDir env u f) with
  | nil => exact absurd hst hne
  | cons a l => rfl

theorem repairTargets_nonempty (env : Environ) (healthy : List String) (src : String)
    (htarget : (∃ p ∈ healthy, p ≠ src) ∨ selfURL env ≠ src) :
    repairTargets env healthy [src] ≠ [] := by
  unfold repairTargets
  by_cases hf : (healthy.filter fun peer => !contains [src] peer) = []
  · rcases htarget with ⟨p, hp, hne⟩ | hself
    · have hin : p ∈ healthy.filter fun peer => !contains [src] peer := by
        refine List.mem_filter.mpr ⟨hp, ?_⟩
        have hsp : ¬ src = p := fun h => hne h.symm
        have : contains [src] p = false := by
          simp [contains, hsp]
        simp [this]
      rw [hf] at hin
      simp at hin
    · have hss : ¬ src = selfURL env := fun h => hself h.symm
      have hc : contains [src] (selfURL env) = false := by
        simp [contains, hss]
      simp [hf, hc]
  · have hlen : ¬ (healthy.filter fun peer => !contains [src] peer).length = 0 := by
      simpa using hf
    simp only [hlen, false_and, if_false]
    exact hf

/-- A repair under any failure: it returns, leaves every directory but the one
of `(u, f)` as it was, and its actions are the download and pushes. -/
theorem repairUnder_frame (env : Environ) (w : SyncEnv) (fDl fTg : Faults) (st : Store)
    (healthy : List String) (f u src : String) (more : List String) :
    ∃ r, repairUnder env w fDl fTg st healthy f u (src :: more) = some r
      ∧ r.toDelete = []
      ∧ (∀ p, p ≠ writeChunksDir env u f → r.store p = st p)
      ∧ (∀ e ∈ r.events, e = SyncEvent.download src u f
          ∨ ∃ t, e = SyncEvent.push t u f (w.push t u f))
      ∧ (w.get src u f = none →
          r.store = st ∧ r.holders = src :: more ∧ r.events = [SyncEvent.download src u f]) := by
  cases hget : w.get src u f with
  | none =>
    refine ⟨{ store := st, holders := src :: more, toDelete := [],
              events := [SyncEvent.download src u f] }, ?_, rfl, fun _ _ => rfl, ?_, ?_⟩
    · simp [repairUnder, downloadFileFromPeer, hget]
    · intro e he
      left
      simpa using he
    · intro _
      exact ⟨rfl, rfl, rfl⟩
  | some data =>
    obtain ⟨wr, hwr⟩ := Option.isSome_iff_exists.mp (writeChunks_returns env fDl st u f data)
    cases herr : wr.err with
    | some e0 =>
      refine ⟨{ store := wr.store, holders := src :: more, toDelete := [],
                events := [SyncEvent.download src u f] }, ?_, rfl, ?_, ?_, ?_⟩
      · simp [repairUnder, downloadFileFromPeer, hget, hwr, herr]
      · intro p hp
        exact writeChunks_frame env fDl st u f data wr hwr p hp
      · intro e he
        left
        simpa using he
      · intro hc
        exact absurd hc (by simp)
    | none =>
      obtain ⟨r, hr, -, htd, -, hev, -, hframe, -⟩ :=
        repairUnder_downloaded env w fDl fTg st healthy f u src more data wr hget hwr herr
      refine ⟨r, hr, htd, hframe, ?_, ?_⟩
      · intro e he
        rcases hev e he with h | ⟨t, -, -, h⟩
        · left; exact h
        · right; exact ⟨t, h⟩
      · intro hc
        exact absurd hc (by simp)

/-! ## Replicator idempotence: claim -/

/-- C11 (replicator idempotence).  For a fixed list of distinct healthy peers
without self and fixed push outcomes, where HEAD on a peer is true in the second
run when it was true before or a push to it succeeded in the first run:
`replicateToPeers` returns the same `stored_on` list in both runs; each peer
receives at most one successful transfer over the two runs, the second run
making none at all; and the second run sends no push to a peer that the first
run stored on. -/
theorem replicator_idempotent (env : Environ) (healthy : List String) (head : String → Bool)
    (push : String → Nat → Bool) (hself : selfURL env ∉ healthy) (hnd : healthy.Nodup) :
    (replicateToPeers env healthy
        (headAfter head push (replicateToPeers env healthy head push).2) push).1
      = (replicateToPeers env healthy head push).1
    ∧ (∀ p, transfers push (replicateToPeers env healthy head push).2 p
          + transfers push (replicateToPeers env healthy
              (headAfter head push (replicateToPeers env healthy head push).2) push).2 p ≤ 1)
    ∧ (∀ p, transfers push (replicateToPeers env healthy
              (headAfter head push (replicateToPeers env healthy head push).2) push).2 p = 0)
    ∧ (∀ p ∈ (replicateToPeers env healthy head push).1, ∀ k,
          Event.push p k ∉ (replicateToPeers env healthy
              (headAfter head push (replicateToPeers env healthy head push).2) push).2) := by
  obtain ⟨hst1, htr1⟩ := replicateToPeers_transfers env healthy head push hself
  obtain ⟨hst2, htr2⟩ := replicateToPeers_transfers env healthy
    (headAfter head push (replicateToPeers env healthy head push).2) push hself
  obtain ⟨hpush2, hmem2⟩ := replicateToPeers_pushes env healthy
    (headAfter head push (replicateToPeers env healthy head push).2) push hself hnd
  have hacc := accepts_headAfter env healthy head push hself
  rw [hacc] at hst2 htr2
  have hzero : ∀ p, transfers push (replicateToPeers env healthy
      (headAfter head push (replicateToPeers env healthy head push).2) push).2 p = 0 := by
    intro p
    rw [htr2 p]
    split
    · rename_i hc
      obtain ⟨hhead, hin⟩ := hc
      unfold headAfter at hhead
      simp only [Bool.or_eq_false_iff, decide_eq_false_iff_not] at hhead
      have h1 := htr1 p
      rw [if_pos ⟨hhead.1, hin⟩] at h1
      omega
    · rfl
  refine ⟨by rw [hst2, hst1], ?_, hzero, ?_⟩
  · intro p
    rw [hzero p, htr1 p]
    split <;> omega
  · intro p hp k hin
    have hfalse := hpush2 p k hin
    rw [hst1] at hp
    rcases List.mem_cons.mp hp with hp | hp
    · have := hmem2 _ hin p rfl
      rw [hp] at this
      exact hself this
    · unfold headAfter at hfalse
      simp only [Bool.or_eq_false_iff, decide_eq_false_iff_not] at hfalse
      have h1 := htr1 p
      rw [if_pos ⟨hfalse.1, hp⟩] at h1
      omega

/-- Witness of C11: node `s1`, healthy peers `s2, s3`, no peer holds the file,
the pushes to `s2` fail and the pushes to `s3` succeed. -/
theorem replicator_idempotent_witness :
    selfURL env0 ∉ ["http://s2:8080", "http://s3:8080"]
    ∧ ["http://s2:8080", "http://s3:8080"].Nodup
    ∧ (replicateToPeers env0 ["http://s2:8080", "http://s3:8080"]
        (headAfter (fun _ => false) (fun p _ => p == "http://s3:8080")
          (replicateToPeers env0 ["http://s2:8080", "http://s3:8080"] (fun _ => false)
            (fun p _ => p == "http://s3:8080")).2)
        (fun p _ => p == "http://s3:8080")).1
      = (replicateToPeers env0 ["http://s2:8080", "http://s3:8080"] (fun _ => false)
          (fun p _ => p == "http://s3:8080")).1
    ∧ (replicateToPeers env0 ["http://s2:8080", "http://s3:8080"] (fun _ => false)
          (fun p _ => p == "http://s3:8080")).1 = ["http://s1:8080", "http://s3:8080"] :=
  ⟨by decide, by decide,
    (replicator_idempotent env0 ["http://s2:8080", "http://s3:8080"] (fun _ => false)
      (fun p _ => p == "http://s3:8080") (by decide) (by decide)).1,
    by decide⟩

/-! ## Claims on the Reconciler -/

/-- The list that an over-prune pass hands to `deleteFileOnNode`.  For an entry
whose holder list `H` has more than `R` nodes, one pass hands over exactly the
nodes
`sort(H)[R:]`, where `sort(H)` is `H` in increasing lexicographic order of the
URLs; any other order of gathering `H` gives the same list; every removal and
every DELETE request of the pass is addressed to one of these nodes; the `R`
smallest holders are not among them when the holders are distinct, and each of
them is at most every node to delete; for `H = [s1, s2, s3]` the list is `[s3]`. -/
theorem over_prune_deterministic (env : Environ) (w : SyncEnv) (fDl fTg : Faults) (st : Store)
    (healthy : List String) (filename userID : String) (nodes : List String)
    (hlen : nodes.length > ReplicationFactor) :
    ∃ r, syncEntry env w fDl fTg st healthy filename userID nodes = some r
      ∧ r.toDelete = (sortStrings nodes).drop ReplicationFactor
      ∧ (sortStrings nodes).Perm nodes
      ∧ (sortStrings nodes).Sorted (fun a b => strLe a b = true)
      ∧ (∀ nodes' : List String, nodes'.Perm nodes →
          ∃ r', syncEntry env w fDl fTg st healthy filename userID nodes' = some r'
            ∧ r'.toDelete = r.toDelete)
      ∧ (∀ e ∈ r.events, ∃ n ∈ r.toDelete, e.deleteTarget (selfURL env) = some n)
      ∧ (nodes.Nodup → ∀ x ∈ (sortStrings nodes).take ReplicationFactor, x ∉ r.toDelete)
      ∧ (∀ x ∈ (sortStrings nodes).take ReplicationFactor, ∀ y ∈ r.toDelete, strLe x y = true)
      ∧ (sortStrings ["http://s1:8080", "http://s2:8080", "http://s3:8080"]).drop
          ReplicationFactor = ["http://s3:8080"] := by
  have hbranch : ∀ l : List String, l.length > ReplicationFactor →
      syncEntry env w fDl fTg st healthy filename userID l
        = some (pruneOver env w st filename l) := by
    intro l hl
    have h1 : ¬ l.length < ReplicationFactor := by omega
    simp only [syncEntry, h1, hl, if_false, if_true]
  refine ⟨pruneOver env w st filename nodes, hbranch nodes hlen, rfl, sortStrings_perm nodes,
    sortStrings_sorted nodes, ?_, ?_, ?_, ?_, by decide⟩
  · intro nodes' hperm
    refine ⟨pruneOver env w st filename nodes', hbranch nodes' (by rw [hperm.length_eq]; exact hlen),
      ?_⟩
    simp only [pruneOver]
    rw [sortStrings_congr nodes' nodes hperm]
  · intro e he
    rcases deleteEach_target env w filename _ st [] e he with h | h
    · simp at h
    · exact h
  · intro hnd x hx hy
    have hnd' : (sortStrings nodes).Nodup := (sortStrings_perm nodes).nodup_iff.mpr hnd
    exact (List.disjoint_take_drop hnd' (le_refl _)) hx hy
  · intro x hx y hy
    have hs := sortStrings_sorted nodes
    rw [← List.take_append_drop ReplicationFactor (sortStrings nodes)] at hs
    exact (List.pairwise_append.mp hs).2.2 x hx y hy

/-- The delete list of the entry `[s3, s1, s2]` seen from node `s1`. -/
theorem over_prune_deterministic_witness :
    ["http://s3:8080", "http://s1:8080", "http://s2:8080"].length > ReplicationFactor
    ∧ ∃ r, syncEntry env0
          { ls := fun _ => none, dirExists := fun _ => false, rmFails := false, db := some [],
            del := fun _ _ _ => HttpResult.status 401, get := fun _ _ _ => none,
            push := fun _ _ _ => false }
          noFaults noFaults emptyStore [] "a.bin" "u1"
          ["http://s3:8080", "http://s1:8080", "http://s2:8080"] = some r
        ∧ r.toDelete = (sortStrings ["http://s3:8080", "http://s1:8080", "http://s2:8080"]).drop
            ReplicationFactor :=
  ⟨by decide,
    let ⟨r, h1, h2, _⟩ := over_prune_deterministic env0
      { ls := fun _ => none, dirExists := fun _ => false, rmFails := false, db := some [],
        del := fun _ _ _ => HttpResult.status 401, get := fun _ _ _ => none,
        push := fun _ _ _ => false }
      noFaults noFaults emptyStore [] "a.bin" "u1"
      ["http://s3:8080", "http://s1:8080", "http://s2:8080"] (by decide)
    ⟨r, h1, h2⟩⟩

/-- C13 as stated fails: in scenario S3 a pass on `s1` pushes `a.bin` to `s2`
and to `s3`, so three nodes hold it; a pass on `s2` or on `s3` pushes to the one
remaining peer and stores the downloaded file on its own disk as well. -/
theorem s3_repair_goes_beyond_one_node :
    gatherHolders (peersList env0 ++ [selfURL env0]) s3Files "a.bin" "u1" = ["http://s1:8080"]
    ∧ (getHealthyNodes env0 allUp hmap0).1 = ["http://s2:8080", "http://s3:8080"]
    ∧ (syncEntry env0 s3World noFaults noFaults loneStore ["http://s2:8080", "http://s3:8080"]
        "a.bin" "u1" ["http://s1:8080"]).map (fun r => (r.holders, r.events))
      = some (["http://s1:8080", "http://s2:8080", "http://s3:8080"],
          [SyncEvent.download "http://s1:8080" "u1" "a.bin",
           SyncEvent.push "http://s2:8080" "u1" "a.bin" true,
           SyncEvent.push "http://s3:8080" "u1" "a.bin" true])
    ∧ (syncEntry (envOf "s2") s3World noFaults noFaults emptyStore
        ["http://s1:8080", "http://s3:8080"] "a.bin" "u1" ["http://s1:8080"]).map
          (fun r => (r.events, hasAnyChunk (envOf "s2") r.store "s2" "u1" "a.bin"))
      = some ([SyncEvent.download "http://s1:8080" "u1" "a.bin",
               SyncEvent.push "http://s3:8080" "u1" "a.bin" true], true)
    ∧ (syncEntry (envOf "s3") s3World noFaults noFaults emptyStore
        ["http://s1:8080", "http://s2:8080"] "a.bin" "u1" ["http://s1:8080"]).map
          (fun r => (r.events, hasAnyChunk (envOf "s3") r.store "s3" "u1" "a.bin"))
      = some ([SyncEvent.download "http://s1:8080" "u1" "a.bin",
               SyncEvent.push "http://s2:8080" "u1" "a.bin" true], true) :=
  ⟨by decide, by decide, by decide, by decide, by decide⟩

/-- C13, amended.  With `R = 2`, three nodes all healthy and `a.bin` held only by
`s1`, one pass on any of the three nodes takes `s1` as source and pushes the
file to every healthy peer that is not a holder (`s2` and `s3` on `s1`, `s3` on
`s2`, `s2` on `s3`); the node that runs the pass stores the downloaded file on
its own disk; so after the pass each of `s1`, `s2`, `s3` holds `a.bin`. -/
theorem s3_repair_reaches_every_node (env : Environ) (w : SyncEnv) (h : HealthEnv)
    (m : HealthMap) (st : Store) (u f : String) (data : List Byte)
    (hnode : getEnv env "NODE_ID" "s1" = "s1" ∨ getEnv env "NODE_ID" "s1" = "s2"
      ∨ getEnv env "NODE_ID" "s1" = "s3")
    (hup : ∀ p, (h.probe p).ok = true)
    (hbase : filepathBase f = f) (hdata : data ≠ [])
    (hget : w.get "http://s1:8080" u f = some data) (hpush : ∀ t, w.push t u f = true) :
    ∃ r, syncEntry env w noFaults noFaults st (getHealthyNodes env h m).1 f u ["http://s1:8080"]
          = some r
      ∧ r.events.head? = some (SyncEvent.download "http://s1:8080" u f)
      ∧ (∀ t ∈ peersList env, t ≠ "http://s1:8080" → SyncEvent.push t u f true ∈ r.events)
      ∧ hasAnyChunk env r.store (getEnv env "NODE_ID" "s1") u f = true
      ∧ (∀ n ∈ ["http://s1:8080", "http://s2:8080", "http://s3:8080"],
          n = "http://s1:8080" ∨ n = selfURL env ∨ SyncEvent.push n u f true ∈ r.events) := by
  have hhealthy : (getHealthyNodes env h m).1 = peersList env :=
    getHealthyFrom_all_ok h hup _ _
  obtain ⟨wr, hwr, herr, hstored⟩ := writeChunks_noFaults env st u f data
  obtain ⟨r, hr, -, -, hhead, -, hall, -, hsame⟩ :=
    repairUnder_downloaded env w noFaults noFaults st (peersList env) f u "http://s1:8080" []
      data wr hget hwr herr
  have hentry : syncEntry env w noFaults noFaults st (getHealthyNodes env h m).1 f u
      ["http://s1:8080"] = some r := by
    rw [hhealthy]
    have h1 : (["http://s1:8080"] : List String).length < ReplicationFactor := by decide
    simp only [syncEntry, h1, if_true]
    exact hr
  have hfacts : selfURL env ∉ repairTargets env (peersList env) ["http://s1:8080"]
      ∧ (∀ t ∈ peersList env, t ≠ "http://s1:8080" →
          t ∈ repairTargets env (peersList env) ["http://s1:8080"] ∧ t ≠ selfURL env)
      ∧ (∀ n ∈ ["http://s1:8080", "http://s2:8080", "http://s3:8080"],
          n = "http://s1:8080" ∨ n = selfURL env ∨ n ∈ peersList env) := by
    rcases hnode with hn | hn | hn
    · have hP : peersList env = ["http://s2:8080", "http://s3:8080"] := by simp [peersList, hn]
      have hS : selfURL env = "http://s1:8080" := by rw [selfURL, hn]; decide
      have hT : repairTargets env (peersList env) ["http://s1:8080"]
          = ["http://s2:8080", "http://s3:8080"] := by
        simp only [repairTargets, hP, hS]; decide
      rw [hT, hP, hS]
      decide
    · have hP : peersList env = ["http://s1:8080", "http://s3:8080"] := by simp [peersList, hn]
      have hS : selfURL env = "http://s2:8080" := by rw [selfURL, hn]; decide
      have hT : repairTargets env (peersList env) ["http://s1:8080"] = ["http://s3:8080"] := by
        simp only [repairTargets, hP, hS]; decide
      rw [hT, hP, hS]
      decide
    · have hP : peersList env = ["http://s1:8080", "http://s2:8080"] := by simp [peersList, hn]
      have hS : selfURL env = "http://s3:8080" := by rw [selfURL, hn]; decide
      have hT : repairTargets env (peersList env) ["http://s1:8080"] = ["http://s2:8080"] := by
        simp only [repairTargets, hP, hS]; decide
      rw [hT, hP, hS]
      decide
  obtain ⟨hnoself, htargets, hcover⟩ := hfacts
  have hpushed : ∀ t ∈ peersList env, t ≠ "http://s1:8080" →
      SyncEvent.push t u f true ∈ r.events := by
    intro t ht hne
    have := hall t (htargets t ht hne).1 (htargets t ht hne).2
    rwa [hpush t] at this
  refine ⟨r, hentry, hhead, hpushed, ?_, ?_⟩
  · rw [hsame hnoself]
    exact hasAnyChunk_after_write env wr.store u f hbase (hstored hdata)
  · intro n hn
    rcases hcover n hn with h1 | h1 | h1
    · left; exact h1
    · right; left; exact h1
    · by_cases hs1 : n = "http://s1:8080"
      · left; exact hs1
      · right; right; exact hpushed n h1 hs1

/-- Witness of the amended C13: the pass on `s1` in scenario S3. -/
theorem s3_repair_reaches_every_node_witness :
    (getEnv env0 "NODE_ID" "s1" = "s1" ∨ getEnv env0 "NODE_ID" "s1" = "s2"
      ∨ getEnv env0 "NODE_ID" "s1" = "s3")
    ∧ (∀ p, (allUp.probe p).ok = true)
    ∧ filepathBase "a.bin" = "a.bin" ∧ ([1, 2, 3] : List Byte) ≠ []
    ∧ s3World.get "http://s1:8080" "u1" "a.bin" = some [1, 2, 3]
    ∧ (∀ t, s3World.push t "u1" "a.bin" = true)
    ∧ ∃ r, syncEntry env0 s3World noFaults noFaults loneStore (getHealthyNodes env0 allUp hmap0).1
          "a.bin" "u1" ["http://s1:8080"] = some r
      ∧ r.events.head? = some (SyncEvent.download "http://s1:8080" "u1" "a.bin")
      ∧ (∀ t ∈ peersList env0, t ≠ "http://s1:8080" →
          SyncEvent.push t "u1" "a.bin" true ∈ r.events)
      ∧ hasAnyChunk env0 r.store (getEnv env0 "NODE_ID" "s1") "u1" "a.bin" = true
      ∧ (∀ n ∈ ["http://s1:8080", "http://s2:8080", "http://s3:8080"],
          n = "http://s1:8080" ∨ n = selfURL env0
            ∨ SyncEvent.push n "u1" "a.bin" true ∈ r.events) :=
  ⟨by decide, fun _ => rfl, by decide, by decide, by decide, fun _ => rfl,
    s3_repair_reaches_every_node env0 s3World allUp hmap0 loneStore "u1" "a.bin" [1, 2, 3]
      (by decide) (fun _ => rfl) (by decide) (by decide) (by decide) (fun _ => rfl)⟩

/-- A lone holder without a reachable peer: node `s1` holds `a.bin` and is
healthy, the peers `s2` and `s3` are down.  A pass on `s1` finds the entry `[s1]`, downloads from `s1`,
has no target, and leaves one holder and the same chunk file; every further
pass starts from the same state, so the holder count stays at 1 and never
reaches `R = 2`. -/
theorem lone_holder_never_reaches_R :
    (getHealthyNodes env0 allDown hmap0).1 = []
    ∧ (syncEntry env0 s3World noFaults noFaults loneStore (getHealthyNodes env0 allDown hmap0).1
        "a.bin" "u1" ["http://s1:8080"]).map (fun r => (r.holders, r.toDelete, r.events))
      = some (["http://s1:8080"], [], [SyncEvent.download "http://s1:8080" "u1" "a.bin"])
    ∧ (syncEntry env0 s3World noFaults noFaults loneStore (getHealthyNodes env0 allDown hmap0).1
        "a.bin" "u1" ["http://s1:8080"]).map (fun r => r.store "/app/storage/s1/u1/a.bin")
      = some (loneStore "/app/storage/s1/u1/a.bin")
    ∧ (∀ n, holdersAfterPasses
          (fun holders =>
            (syncEntry env0 s3World noFaults noFaults loneStore
              (getHealthyNodes env0 allDown hmap0).1 "a.bin" "u1" holders).map
                (fun r => r.holders))
          n ["http://s1:8080"] = some ["http://s1:8080"])
    ∧ (["http://s1:8080"] : List String).length < ReplicationFactor := by
  refine ⟨by decide, by decide, by decide, ?_, by decide⟩
  intro n
  induction n with
  | zero => rfl
  | succ n ih =>
    have hstep : (syncEntry env0 s3World noFaults noFaults loneStore
        (getHealthyNodes env0 allDown hmap0).1 "a.bin" "u1" ["http://s1:8080"]).map
          (fun r => r.holders) = some ["http://s1:8080"] := by decide
    simp only [holdersAfterPasses, hstep, Option.some_bind]
    exact ih

/-- One under-repair pass from a single holder, and a pass at exactly `R`
holders.  For an entry with one holder `src` (fewer than `R = 2`) whose
download succeeds, with a healthy peer other than `src` or with the node itself
other than `src`, and with every push succeeding, one under-repair pass leaves
a holder list of at least `R` entries: `src` followed by every target (it can
exceed `R`, every healthy non-holder being a target).  A pass that finds
exactly `R` holders downloads, pushes and deletes nothing and leaves the store
and the holder list as they are, so a count of `R` is kept by every later
pass. -/
theorem under_repair_reaches_R_and_R_is_kept (env : Environ) (w : SyncEnv) (st : Store)
    (healthy : List String) (f u src : String) (data : List Byte)
    (hget : w.get src u f = some data) (hpush : ∀ t, w.push t u f = true)
    (htarget : (∃ p ∈ healthy, p ≠ src) ∨ selfURL env ≠ src) :
    (∃ r, syncEntry env w noFaults noFaults st healthy f u [src] = some r
      ∧ r.holders = [src] ++ repairTargets env healthy [src]
      ∧ ReplicationFactor ≤ r.holders.length
      ∧ r.toDelete = [])
    ∧ (∀ (fDl fTg : Faults) (st' : Store) (nodes : List String),
        nodes.length = ReplicationFactor →
        ∃ r, syncEntry env w fDl fTg st' healthy f u nodes = some r
          ∧ r.store = st' ∧ r.holders = nodes ∧ r.toDelete = [] ∧ r.events = []) := by
  constructor
  · obtain ⟨wr, hwr, herr, -⟩ := writeChunks_noFaults env st u f data
    obtain ⟨r, hr, hholders, htd, -⟩ :=
      repairUnder_downloaded env w noFaults noFaults st healthy f u src [] data wr hget hwr herr
    have hfilter : (repairTargets env healthy [src]).filter
        (fun t => decide (t = selfURL env) || w.push t u f) = repairTargets env healthy [src] := by
      apply List.filter_eq_self.mpr
      intro t _
      simp [hpush t]
    rw [hfilter] at hholders
    refine ⟨r, ?_, hholders, ?_, htd⟩
    · have h1 : ([src] : List String).length < ReplicationFactor := by
        simp [ReplicationFactor]
      simp only [syncEntry, h1, if_true]
      exact hr
    · rw [hholders]
      have hne := repairTargets_nonempty env healthy src htarget
      have hpos : 0 < (repairTargets env healthy [src]).length := List.length_pos.mpr hne
      have hRF : ReplicationFactor = 2 := rfl
      simp only [List.length_append, List.length_singleton]
      omega
  · intro fDl fTg st' nodes hlen
    refine ⟨{ store := st', holders := nodes, toDelete := [], events := [] }, ?_, rfl, rfl, rfl,
      rfl⟩
    have h1 : ¬ nodes.length < ReplicationFactor := by omega
    have h2 : ¬ nodes.length > ReplicationFactor := by omega
    simp only [syncEntry, h1, h2, if_false]

/-- The under-repair pass on `s1` in scenario S3. -/
theorem under_repair_reaches_R_and_R_is_kept_witness :
    s3World.get "http://s1:8080" "u1" "a.bin" = some [1, 2, 3]
    ∧ (∀ t, s3World.push t "u1" "a.bin" = true)
    ∧ ((∃ p ∈ ["http://s2:8080", "http://s3:8080"], p ≠ "http://s1:8080")
        ∨ selfURL env0 ≠ "http://s1:8080")
    ∧ ∃ r, syncEntry env0 s3World noFaults noFaults loneStore
          ["http://s2:8080", "http://s3:8080"] "a.bin" "u1" ["http://s1:8080"] = some r
      ∧ r.holders = ["http://s1:8080"]
          ++ repairTargets env0 ["http://s2:8080", "http://s3:8080"] ["http://s1:8080"]
      ∧ ReplicationFactor ≤ r.holders.length
      ∧ r.toDelete = [] :=
  ⟨by decide, fun _ => rfl, Or.inl ⟨"http://s2:8080", by decide, by decide⟩,
    (under_repair_reaches_R_and_R_is_kept env0 s3World loneStore
      ["http://s2:8080", "http://s3:8080"] "a.bin" "u1" "http://s1:8080" [1, 2, 3]
      (by decide) (fun _ => rfl) (Or.inl ⟨"http://s2:8080", by decide, by decide⟩)).1⟩

/-- C15 (no deletion of a file unknown to the metadata), evaluated on node `s3`
with an empty metadata collection and the over-replicated entry
`(a.bin, u1) ↦ [s1, s2, s3]`: the pass hands `s3`, the local node, to
`deleteFileOnNode`, whose local branch removes the directory of `a.bin` without
asking the metadata directory, so the chunks are gone although no record
exists; the remote branch, run from `s1` for the same entry, sends nothing. -/
theorem local_prune_ignores_metadata :
    getFileMetadataFromFirebase (twoUserWorld []).db "u1" "a.bin" = none
    ∧ hasAnyChunk (envOf "s3") twoUserStore "s3" "u1" "a.bin" = true
    ∧ (syncEntry (envOf "s3") (twoUserWorld []) noFaults noFaults twoUserStore [] "a.bin" "u1"
        ["http://s1:8080", "http://s2:8080", "http://s3:8080"]).map
          (fun r => (r.toDelete, r.events, hasAnyChunk (envOf "s3") r.store "s3" "u1" "a.bin"))
      = some (["http://s3:8080"], [SyncEvent.removeLocal "u1" "a.bin"], false)
    ∧ (syncEntry env0 (twoUserWorld []) noFaults noFaults emptyStore [] "a.bin" "u1"
        ["http://s1:8080", "http://s2:8080", "http://s3:8080"]).map
          (fun r => (r.toDelete, r.events))
      = some (["http://s3:8080"], []) :=
  ⟨by decide, by decide, by decide, by decide⟩

/-- C16 (deletion keyed by user and filename), evaluated on node `s3` whose disk
holds `a.bin` for `u1` and for `u2`, with the over-replicated entry
`(a.bin, u2) ↦ [s1, s2, s3]`: `deleteFileOnNode` receives the filename only and
removes the copy of `u1`, the first user directory that has the name, while the
copy of `u2` stays; run from `s1`, the DELETE sent to `s3` carries the user id of
the first record found by the query for the empty user id, here the empty
string, not `u2`. -/
theorem prune_removes_copy_of_other_user :
    (syncEntry (envOf "s3") (twoUserWorld [⟨"a.bin", "u2", ["s1", "s2", "s3"]⟩]) noFaults
        noFaults twoUserStore [] "a.bin" "u2"
        ["http://s1:8080", "http://s2:8080", "http://s3:8080"]).map
          (fun r => (r.toDelete, r.events,
            hasAnyChunk (envOf "s3") r.store "s3" "u1" "a.bin",
            hasAnyChunk (envOf "s3") r.store "s3" "u2" "a.bin"))
      = some (["http://s3:8080"], [SyncEvent.removeLocal "u1" "a.bin"], false, true)
    ∧ hasAnyChunk (envOf "s3") twoUserStore "s3" "u1" "a.bin" = true
    ∧ (syncEntry env0
        (twoUserWorld [⟨"a.bin", "u2", ["s1", "s2", "s3"]⟩, ⟨"a.bin", "", []⟩]) noFaults
        noFaults emptyStore [] "a.bin" "u2"
        ["http://s1:8080", "http://s2:8080", "http://s3:8080"]).map (fun r => r.events)
      = some [SyncEvent.deleteRequest "http://s3:8080" "a.bin" "" (HttpResult.status 401)]
    ∧ (syncEntry env0 (twoUserWorld [⟨"a.bin", "u2", ["s1", "s2", "s3"]⟩]) noFaults
        noFaults emptyStore [] "a.bin" "u2"
        ["http://s1:8080", "http://s2:8080", "http://s3:8080"]).map (fun r => r.events)
      = some [] :=
  ⟨by decide, by decide, by decide, by decide⟩

/-- C17 as stated fails: on `s1`, which does not hold `a.bin`, the repair of the
entry `[s2]` downloads the file, stores it on the local disk, and then sees its
one push (to `s3`) refused; the chunk store of `s1` has changed although every
push failed. -/
theorem failed_pushes_leave_local_copy :
    hasAnyChunk env0 emptyStore "s1" "u1" "a.bin" = false
    ∧ (syncEntry env0 pushDownWorld noFaults noFaults emptyStore
        ["http://s2:8080", "http://s3:8080"] "a.bin" "u1" ["http://s2:8080"]).map
          (fun r => (r.holders, r.events, hasAnyChunk env0 r.store "s1" "u1" "a.bin"))
      = some (["http://s2:8080"],
          [SyncEvent.download "http://s2:8080" "u1" "a.bin",
           SyncEvent.push "http://s3:8080" "u1" "a.bin" false],
          true)
    ∧ (syncEntry env0 pushDownWorld noFaults noFaults emptyStore
        ["http://s2:8080", "http://s3:8080"] "a.bin" "u1" ["http://s2:8080"]).map
          (fun r => r.store "/app/storage/s1/u1/a.bin")
      = some [(0, [1, 2, 3])] :=
  ⟨by decide, by decide, by decide⟩

/-- C17, amended.  In an under-replication repair of `(user, filename)`: if the
GET of the file from the source fails, the pass sends no push and no delete and
the local chunk store is unchanged, so every node is as before; if every push
fails, no peer has accepted a transfer and nothing is deleted, and on the node
that runs the Reconciler only the directory of `(user, filename)`, where the
download is stored, can differ from before. -/
theorem transfer_failure_effects (env : Environ) (w : SyncEnv) (fDl fTg : Faults) (st : Store)
    (healthy : List String) (f u src : String) (more : List String)
    (hlen : (src :: more).length < ReplicationFactor) :
    ∃ r, syncEntry env w fDl fTg st healthy f u (src :: more) = some r
      ∧ r.toDelete = []
      ∧ (∀ e ∈ r.events, e.deleteTarget (selfURL env) = none)
      ∧ (∀ p, p ≠ writeChunksDir env u f → r.store p = st p)
      ∧ (w.get src u f = none →
          r.store = st ∧ r.holders = src :: more ∧ r.events = [SyncEvent.download src u f])
      ∧ ((∀ t, w.push t u f = false) →
          ∀ e ∈ r.events, e = SyncEvent.download src u f ∨ ∃ t, e = SyncEvent.push t u f false) := by
  obtain ⟨r, hr, htd, hframe, hev, hnone⟩ := repairUnder_frame env w fDl fTg st healthy f u src more
  refine ⟨r, ?_, htd, ?_, hframe, hnone, ?_⟩
  · simp only [syncEntry, hlen, if_true]
    exact hr
  · intro e he
    rcases hev e he with h | ⟨t, h⟩ <;> rw [h] <;> rfl
  · intro hfail e he
    rcases hev e he with h | ⟨t, h⟩
    · left; exact h
    · right
      rw [hfail t] at h
      exact ⟨t, h⟩

/-- Witness of the amended C17: the repair of the entry `[s2]` on `s1` with every
push refused. -/
theorem transfer_failure_effects_witness :
    (["http://s2:8080"] : List String).length < ReplicationFactor
    ∧ ∃ r, syncEntry env0 pushDownWorld noFaults noFaults emptyStore
          ["http://s2:8080", "http://s3:8080"] "a.bin" "u1" ["http://s2:8080"] = some r
      ∧ r.toDelete = []
      ∧ (∀ e ∈ r.events, e.deleteTarget (selfURL env0) = none)
      ∧ (∀ p, p ≠ writeChunksDir env0 "u1" "a.bin" → r.store p = emptyStore p) :=
  ⟨by decide,
    let ⟨r, h1, h2, h3, h4, _⟩ := transfer_failure_effects env0 pushDownWorld noFaults noFaults
      emptyStore ["http://s2:8080", "http://s3:8080"] "a.bin" "u1" "http://s2:8080" []
      (by decide)
    ⟨r, h1, h2, h3, h4⟩⟩

/-- C18 (404 only after trying the replicas), evaluated on node `s1` for the
file `a.bin` of `u1` that only `s2`, healthy, returns.  When the first listed
node is `s1` and the local store has no chunks, the handler answers 404 without
a request to any peer; when the first listed node is `s3`, healthy, which
answers 404, the handler passes that 404 on without a request to `s2`.  Only
when the first listed node is unhealthy are the peers tried, and `s2` then
serves the file. -/
theorem download_gives_up_before_replicas :
    downloadHandler (envOf "s1") noFaults emptyStore
        (some [⟨"a.bin", "u1", ["s1", "http://s2:8080"]⟩]) hostOf allUp hmap0 rawOnlyS2
        "u1" "a.bin"
      = some { status := 404, body := [], contacted := [] }
    ∧ downloadHandler envS1Peers noFaults emptyStore
        (some [⟨"a.bin", "u1", ["http://s3:8080", "http://s2:8080"]⟩]) hostOf allUp hmap0
        rawOnlyS2 "u1" "a.bin"
      = some { status := 404, body := [], contacted := ["http://s3:8080"] }
    ∧ (isNodeHealthy hmap0 (allUp.probe "http://s2:8080") (allUp.clock "http://s2:8080")
        "http://s2:8080").1 = true
    ∧ downloadHandler envS1Peers noFaults emptyStore
        (some [⟨"a.bin", "u1", ["http://s3:8080", "http://s2:8080"]⟩]) hostOf s3Down hmap0
        rawOnlyS2 "u1" "a.bin"
      = some { status := 200, body := [1, 2, 3], contacted := ["http://s2:8080"] } :=
  ⟨by decide, by decide, by decide, by decide⟩

/-- C19 (retry and backoff), evaluated on node `s1` with the one healthy peer
`s2` that does not hold the file and on which every push fails: three attempts
are made, and a wait follows each of them, the last one included (2 s, 4 s and
6 s), so the peer costs 12 s of waiting, not 6 s; with the second attempt
succeeding there are two attempts and one wait of 2 s. -/
theorem retry_sleeps_after_last_attempt :
    (replicateToPeers env0 ["http://s2:8080"] (fun _ => false) (fun _ _ => false)).2
      = [Event.head "http://s2:8080",
         Event.push "http://s2:8080" 1, Event.sleep 2000000000,
         Event.push "http://s2:8080" 2, Event.sleep 4000000000,
         Event.push "http://s2:8080" 3, Event.sleep 6000000000]
    ∧ totalSleep (replicateToPeers env0 ["http://s2:8080"] (fun _ => false)
        (fun _ _ => false)).2 = 12000000000
    ∧ ReplicateRetryDelay * 3 = 6000000000
    ∧ (replicateToPeers env0 ["http://s2:8080"] (fun _ => false) (fun _ k => k == 2)).2
      = [Event.head "http://s2:8080",
         Event.push "http://s2:8080" 1, Event.sleep 2000000000,
         Event.push "http://s2:8080" 2] :=
  ⟨by decide, by decide, by decide, by decide⟩

/-- C20 (under-replication target selection), evaluated on `s1` for the entry
`[s2]` with `s2` the only healthy peer: the source is `s2`, no healthy peer is
a non-holder, so the target list is `[self]`; the `writeChunks` for the self
target fails at its first chunk, its result is dropped, and `s1` is appended to
the holder list all the same. -/
theorem self_target_appended_after_failed_write :
    repairTargets env0 ["http://s2:8080"] ["http://s2:8080"] = ["http://s1:8080"]
    ∧ (writeChunks env0 (failAt 0) loneStore "u1" "a.bin" [1, 2, 3]).map
        (fun r => (r.count, r.err)) = some (0, some Err.ioError)
    ∧ (syncEntry env0 pushDownWorld noFaults (failAt 0) emptyStore ["http://s2:8080"]
        "a.bin" "u1" ["http://s2:8080"]).map (fun r => (r.holders, r.events))
      = some (["http://s2:8080", "http://s1:8080"],
          [SyncEvent.download "http://s2:8080" "u1" "a.bin"]) :=
  ⟨by decide, by decide, by decide⟩

/-! ## Rewrite over an existing file: lemmas and claim -/

theorem catChunks_split (d : Dir) (n : Nat) :
    ∀ cnt, catChunks d (n + cnt) = catChunks d n ++ staleChunks d n (n + cnt) := by
  intro cnt
  induction cnt with
  | zero => simp [staleChunks]
  | succ cnt ih =>
    have h1 : n + cnt + 1 - n = cnt + 1 := by omega
    have h2 : n + cnt - n = cnt := by omega
    rw [← Nat.add_assoc, catChunks_succ, ih]
    simp only [staleChunks, h1, h2, List.range'_concat, List.map_append, List.flatten_append,
      List.map_cons, List.map_nil, List.flatten_cons, List.flatten_nil, List.append_nil,
      Nat.one_mul, List.append_assoc]

theorem staleChunks_congr (d d' : Dir) (n m : Nat)
    (h : ∀ j, n ≤ j → chunkAt d j = chunkAt d' j) : staleChunks d n m = staleChunks d' n m := by
  unfold staleChunks
  congr 1
  apply List.map_congr_left
  intro j hj
  rw [h j (List.mem_range'_1.mp hj).1]

/-- C21 as stated fails for a stale chunk file that is empty: the directory holds
`0.chunk` (one byte) and `1.chunk` (empty), a gap-free set of `m = 2` chunk
files; after `writeChunks` of the one-byte payload `[9]` (`n = 1`), the file
`1.chunk` is still there, and `reconstructToWriter` returns `[9]` with
`total = 1`, which is `|b|` and not greater. -/
theorem stale_empty_chunk_adds_nothing :
    chunkAt (emptyTailStore "/app/storage/s1/u1/a.bin") 0 = some [1]
    ∧ chunkAt (emptyTailStore "/app/storage/s1/u1/a.bin") 1 = some []
    ∧ chunkAt (emptyTailStore "/app/storage/s1/u1/a.bin") 2 = none
    ∧ chunkCount ([9] : List Byte).length = 1
    ∧ (writeChunks env0 noFaults emptyTailStore "u1" "a.bin" [9]).map
        (fun w => (w.count, w.err, w.store "/app/storage/s1/u1/a.bin"))
      = some (1, none, [(0, [9]), (1, [])])
    ∧ (writeChunks env0 noFaults emptyTailStore "u1" "a.bin" [9]).bind
        (fun w => reconstructToWriter env0 noFaults w.store "s1" "u1" "a.bin" [])
      = some { sink := [9], total := 1, err := none }
    ∧ ¬ (1 > ([9] : List Byte).length) :=
  ⟨by decide, by decide, by decide, by decide, by decide, by decide, by decide⟩

/-- C21 (amended): `writeChunks` of a byte string `b` of `n = chunkCount |b|` chunks
only creates or overwrites the files `0.chunk .. (n-1).chunk`: every chunk file
of index `>= n` and every other directory is left as it was. Hence, in a
directory that holds the gap-free chunk files `0 .. m-1` with `n < m`, after the
write `reconstructToWriter` writes `b` followed by the old chunk files
`n .. m-1` and returns `total = |b| +` the length of those old chunks; the
result is the no-chunks error exactly when that total is `0`, and the total is
greater than `|b|` exactly when one of the old chunk files `n .. m-1` is
non-empty. -/
theorem stale_chunks_survive_rewrite (env : Environ) (st : Store) (userID filename : String)
    (b sink : List Byte) (m : Nat) (hbase : filepathBase filename = filename)
    (hold : ∀ j, j < m → chunkAt (st (writeChunksDir env userID filename)) j ≠ none)
    (hgap : chunkAt (st (writeChunksDir env userID filename)) m = none)
    (hnm : chunkCount b.length < m) :
    ∃ w, writeChunks env noFaults st userID filename b = some w
      ∧ w.count = chunkCount b.length ∧ w.err = none
      ∧ (∀ j, chunkAt (w.store (writeChunksDir env userID filename)) j
          = if j < chunkCount b.length then some (chunkOf b j)
            else chunkAt (st (writeChunksDir env userID filename)) j)
      ∧ (∀ p, p ≠ writeChunksDir env userID filename → w.store p = st p)
      ∧ ∃ r, reconstructToWriter env noFaults w.store (getEnv env "NODE_ID" "s1")
              userID filename sink = some r
        ∧ r.sink = sink ++ b
            ++ staleChunks (st (writeChunksDir env userID filename)) (chunkCount b.length) m
        ∧ r.total = b.length
            + (staleChunks (st (writeChunksDir env userID filename))
                (chunkCount b.length) m).length
        ∧ r.err = (if r.total = 0 then some Err.noChunks else none)
        ∧ (b.length < r.total
            ↔ staleChunks (st (writeChunksDir env userID filename))
                (chunkCount b.length) m ≠ []) := by
  have hcs := ChunkSize_pos
  have hge : b.length ≤ chunkCount b.length * ChunkSize := chunkCount_mul_ge b.length
  obtain ⟨w, hw, hcount, herr, hchunks, hframe⟩ :=
    writeChunks_run env noFaults st userID filename b (chunkCount b.length) rfl
      (fun i hi => (lt_chunkCount_iff b.length i).mp hi) (fun _ _ => rfl)
      (fun h => absurd h (by omega))
  have herr' : w.err = none := by
    rw [herr, if_neg (by omega)]
  refine ⟨w, hw, hcount, herr', hchunks, hframe, ?_⟩
  have hdir : reconstructDir env (getEnv env "NODE_ID" "s1") userID filename
      = writeChunksDir env userID filename := by
    unfold reconstructDir writeChunksDir
    simp only [hbase]
  obtain ⟨k, hg, hfull, hres⟩ :=
    reconstructToWriter_run env w.store (getEnv env "NODE_ID" "s1") userID filename sink
  rw [hdir] at hg hfull hres
  have hkm : k = m := by
    apply first_gap_unique _ _ _ hg hfull
    · rw [hchunks m, if_neg (by omega)]; exact hgap
    · intro j hj
      rw [hchunks j]
      by_cases hjn : j < chunkCount b.length
      · simp [hjn]
      · rw [if_neg hjn]; exact hold j hj
  subst hkm
  have hsplit : catChunks (w.store (writeChunksDir env userID filename)) k
      = b ++ staleChunks (st (writeChunksDir env userID filename)) (chunkCount b.length) k := by
    have hk : k = chunkCount b.length + (k - chunkCount b.length) := by omega
    have h1 := catChunks_split (w.store (writeChunksDir env userID filename))
      (chunkCount b.length) (k - chunkCount b.length)
    rw [← hk] at h1
    rw [h1, catChunks_of_chunks _ b (chunkCount b.length)
        (fun j hj => by rw [hchunks j, if_pos hj]),
      List.take_of_length_le hge,
      staleChunks_congr (w.store (writeChunksDir env userID filename))
        (st (writeChunksDir env userID filename)) (chunkCount b.length) k
        (fun j hj => by rw [hchunks j, if_neg (by omega)])]
  rw [hsplit] at hres
  generalize staleChunks (st (writeChunksDir env userID filename)) (chunkCount b.length) k
    = tail at hres ⊢
  have hpos : tail ≠ [] ↔ 0 < tail.length := by
    rw [List.length_pos]
  by_cases hz : (b ++ tail).length = 0
  · rw [if_pos hz] at hres
    rw [List.length_append] at hz
    refine ⟨_, hres, ?_, ?_, ?_, ?_⟩
    · simp only [List.append_assoc]
    · show 0 = b.length + tail.length
      omega
    · simp
    · show b.length < 0 ↔ tail ≠ []
      rw [hpos]; omega
  · rw [if_neg hz] at hres
    rw [List.length_append] at hz
    refine ⟨_, hres, ?_, ?_, ?_, ?_⟩
    · simp only [List.append_assoc]
    · show (b ++ tail).length = b.length + tail.length
      rw [List.length_append]
    · show none = if (b ++ tail).length = 0 then some Err.noChunks else none
      rw [List.length_append, if_neg hz]
    · show b.length < (b ++ tail).length ↔ tail ≠ []
      rw [hpos, List.length_append]; omega

/-- Witness of C21 (amended): `a.bin` of `u1` holds the two one-byte chunk files
`0.chunk = [1]` and `1.chunk = [2]`; the one-byte payload `[9]` is written
over it. -/
theorem stale_chunks_survive_rewrite_witness :
    filepathBase "a.bin" = "a.bin"
      ∧ (∀ j, j < 2 → chunkAt (twoChunkStore (writeChunksDir env0 "u1" "a.bin")) j ≠ none)
      ∧ chunkAt (twoChunkStore (writeChunksDir env0 "u1" "a.bin")) 2 = none
      ∧ chunkCount ([9] : List Byte).length < 2
      ∧ ∃ w, writeChunks env0 noFaults twoChunkStore "u1" "a.bin" [9] = some w
        ∧ w.count = chunkCount ([9] : List Byte).length ∧ w.err = none
        ∧ (∀ j, chunkAt (w.store (writeChunksDir env0 "u1" "a.bin")) j
            = if j < chunkCount ([9] : List Byte).length then some (chunkOf [9] j)
              else chunkAt (twoChunkStore (writeChunksDir env0 "u1" "a.bin")) j)
        ∧ (∀ p, p ≠ writeChunksDir env0 "u1" "a.bin" → w.store p = twoChunkStore p)
        ∧ ∃ r, reconstructToWriter env0 noFaults w.store (getEnv env0 "NODE_ID" "s1")
                "u1" "a.bin" [] = some r
          ∧ r.sink = [] ++ [9]
              ++ staleChunks (twoChunkStore (writeChunksDir env0 "u1" "a.bin"))
                  (chunkCount ([9] : List Byte).length) 2
          ∧ r.total = ([9] : List Byte).length
              + (staleChunks (twoChunkStore (writeChunksDir env0 "u1" "a.bin"))
                  (chunkCount ([9] : List Byte).length) 2).length
          ∧ r.err = (if r.total = 0 then some Err.noChunks else none)
          ∧ (([9] : List Byte).length < r.total
              ↔ staleChunks (twoChunkStore (writeChunksDir env0 "u1" "a.bin"))
                  (chunkCount ([9] : List Byte).length) 2 ≠ []) :=
  ⟨by decide, by decide, by decide, by decide,
    stale_chunks_survive_rewrite env0 twoChunkStore "u1" "a.bin" [9] [] 2
      (by decide) (by decide) (by decide) (by decide)⟩

/-! ## Over-replication seen from each node: lemmas and claims -/

/-- C12 fails on the code, in the scenario the claim names: the three nodes hold
`a.bin` of `u1`, the metadata has the record of the file with `userId = "u1"`,
`R = 2`.  A pass on `s1` gathers `[s2, s3, s1]`, a pass on `s2` gathers
`[s1, s3, s2]`; each hands `sort(H)[R:] = [s3]` to `deleteFileOnNode`, whose
remote branch asks the metadata for the records of the empty user id, finds
none and sends no DELETE, whatever the nodes would answer and whatever the
local store holds: the pass requests deletion on no node and leaves the store
as it is.  Only the pass on `s3` itself, through the local branch, removes the
copy on `s3`. -/
theorem over_prune_from_peer_requests_no_delete
    (del : String → String → String → HttpResult) (st : Store) :
    getUserFilesFromFirebase s4World.db "u1" = some [⟨"a.bin", "u1", ["s1", "s2", "s3"]⟩]
    ∧ getUserFilesFromFirebase s4World.db "" = some []
    ∧ ReplicationFactor = 2
    ∧ gatherHolders (peersList env0 ++ [selfURL env0]) s4Files "a.bin" "u1"
        = ["http://s2:8080", "http://s3:8080", "http://s1:8080"]
    ∧ (sortStrings ["http://s2:8080", "http://s3:8080", "http://s1:8080"]).drop ReplicationFactor
        = ["http://s3:8080"]
    ∧ syncEntry env0 { s4World with del := del } noFaults noFaults st
          ["http://s2:8080", "http://s3:8080"] "a.bin" "u1"
          ["http://s2:8080", "http://s3:8080", "http://s1:8080"]
        = some { store := st,
                 holders := ["http://s2:8080", "http://s3:8080", "http://s1:8080"],
                 toDelete := ["http://s3:8080"], events := [] }
    ∧ gatherHolders (peersList (envOf "s2") ++ [selfURL (envOf "s2")]) s4Files "a.bin" "u1"
        = ["http://s1:8080", "http://s3:8080", "http://s2:8080"]
    ∧ syncEntry (envOf "s2") { s4World with del := del } noFaults noFaults st
          ["http://s1:8080", "http://s3:8080"] "a.bin" "u1"
          ["http://s1:8080", "http://s3:8080", "http://s2:8080"]
        = some { store := st,
                 holders := ["http://s1:8080", "http://s3:8080", "http://s2:8080"],
                 toDelete := ["http://s3:8080"], events := [] }
    ∧ gatherHolders (peersList (envOf "s3") ++ [selfURL (envOf "s3")]) s4Files "a.bin" "u1"
        = ["http://s1:8080", "http://s2:8080", "http://s3:8080"]
    ∧ (syncEntry (envOf "s3") s4World noFaults noFaults s4Store
          ["http://s1:8080", "http://s2:8080"] "a.bin" "u1"
          ["http://s1:8080", "http://s2:8080", "http://s3:8080"]).map
          (fun r => (r.toDelete,
            r.events.filterMap (SyncEvent.deleteTarget (selfURL (envOf "s3"))), r.events))
        = some (["http://s3:8080"], ["http://s3:8080"], [SyncEvent.removeLocal "u1" "a.bin"])
    ∧ hasAnyChunk (envOf "s3") s4Store "s3" "u1" "a.bin" = true
    ∧ (syncEntry (envOf "s3") s4World noFaults noFaults s4Store
          ["http://s1:8080", "http://s2:8080"] "a.bin" "u1"
          ["http://s1:8080", "http://s2:8080", "http://s3:8080"]).map
          (fun r => hasAnyChunk (envOf "s3") r.store "s3" "u1" "a.bin")
        = some false :=
  ⟨by decide, by decide, rfl, by decide, by decide, rfl, by decide, rfl, by decide,
    by decide, by decide, by decide⟩

/-- On `s1`, in scenario S4, a pass that starts with the file on `s1`, `s2` and
`s3` gathers the entry `[s2, s3, s1]` and leaves the local store and the
holding peers as they are. -/
theorem reconcilerPass_s1_over (st : Store) (peers : List String)
    (hpeers : peers = ["http://s2:8080", "http://s3:8080"])
    (h : hasAnyChunk env0 st (getEnv env0 "NODE_ID" "s1") "u1" "a.bin" = true) :
    gatherHolders (peersList env0 ++ [selfURL env0])
        (clusterListing env0 st peers "a.bin" "u1") "a.bin" "u1"
      = ["http://s2:8080", "http://s3:8080", "http://s1:8080"]
    ∧ reconcilerPass env0 s4World ["http://s2:8080", "http://s3:8080"] "a.bin" "u1" (st, peers)
      = some (st, ["http://s2:8080", "http://s3:8080"]) := by
  subst hpeers
  have hg : gatherHolders (peersList env0 ++ [selfURL env0])
      (clusterListing env0 st ["http://s2:8080", "http://s3:8080"] "a.bin" "u1") "a.bin" "u1"
      = ["http://s2:8080", "http://s3:8080", "http://s1:8080"] := by
    have hP : peersList env0 ++ [selfURL env0]
        = ["http://s2:8080", "http://s3:8080", "http://s1:8080"] := by decide
    have h2 : clusterListing env0 st ["http://s2:8080", "http://s3:8080"] "a.bin" "u1"
        "http://s2:8080" = some [⟨"a.bin", "u1"⟩] := rfl
    have h3 : clusterListing env0 st ["http://s2:8080", "http://s3:8080"] "a.bin" "u1"
        "http://s3:8080" = some [⟨"a.bin", "u1"⟩] := rfl
    have h1 : clusterListing env0 st ["http://s2:8080", "http://s3:8080"] "a.bin" "u1"
        "http://s1:8080" = some [⟨"a.bin", "u1"⟩] := by
      have hs : ("http://s1:8080" : String) = selfURL env0 := by decide
      simp only [clusterListing, hs, if_true, h]
    rw [hP]
    simp only [gatherHolders, List.map_cons, List.map_nil, h1, h2, h3]
    decide
  refine ⟨hg, ?_⟩
  rw [reconcilerPass]
  simp only [hg]
  rfl

/-- After the first pass on `s1` in scenario S4, started with the file on `s1`
alone, every state reached by further passes on `s1` has the file on `s1` and
on the peers `s2` and `s3`. -/
theorem reconcilerPasses_s1_over (n : Nat) :
    ∃ st : Store,
      reconcilerPasses env0 s4World ["http://s2:8080", "http://s3:8080"] "a.bin" "u1" (n + 1)
          (loneStore, []) = some (st, ["http://s2:8080", "http://s3:8080"])
      ∧ hasAnyChunk env0 st (getEnv env0 "NODE_ID" "s1") "u1" "a.bin" = true := by
  have hpass1 : (reconcilerPass env0 s4World ["http://s2:8080", "http://s3:8080"] "a.bin" "u1"
      (loneStore, [])).map
        (fun s => (s.2, hasAnyChunk env0 s.1 (getEnv env0 "NODE_ID" "s1") "u1" "a.bin"))
      = some (["http://s2:8080", "http://s3:8080"], true) := by decide
  have hfix : ∀ (k : Nat) (st : Store),
      hasAnyChunk env0 st (getEnv env0 "NODE_ID" "s1") "u1" "a.bin" = true →
      reconcilerPasses env0 s4World ["http://s2:8080", "http://s3:8080"] "a.bin" "u1" k
          (st, ["http://s2:8080", "http://s3:8080"])
        = some (st, ["http://s2:8080", "http://s3:8080"]) := by
    intro k
    induction k with
    | zero => intro st _; rfl
    | succ k ih =>
      intro st h
      rw [reconcilerPasses, (reconcilerPass_s1_over st _ rfl h).2, Option.some_bind]
      exact ih st h
  rw [reconcilerPasses]
  cases h1 : reconcilerPass env0 s4World ["http://s2:8080", "http://s3:8080"] "a.bin" "u1"
      (loneStore, []) with
  | none => rw [h1] at hpass1; simp at hpass1
  | some s1 =>
    rw [h1] at hpass1
    simp only [Option.map_some', Option.some.injEq, Prod.mk.injEq] at hpass1
    obtain ⟨st1, l1⟩ := s1
    obtain ⟨hl, hc⟩ := hpass1
    simp only at hl hc
    subst hl
    exact ⟨st1, by rw [Option.some_bind]; exact hfix n st1 hc, hc⟩

/-- C14 fails on the code: the three nodes are healthy, only `s1` holds `a.bin`
of `u1`, the metadata has the record of the file, every node serves the file,
takes every push and would answer 200 to every DELETE.  The first pass on `s1`
is an under-repair pass that pushes to `s2` and to `s3`, so three nodes hold the
file; every later pass on `s1` is an over-prune pass that gathers
`[s2, s3, s1]` and hands `s3` to `deleteFileOnNode`, which looks for records of
the empty user id, finds none and sends no DELETE; the local store and the
holding peers are left as they are, so after any number of passes on `s1` the
holder count is 3 and not `R = 2`. -/
theorem passes_on_s1_stay_over_replicated :
    (∀ m, (getHealthyNodes env0 allUp m).1 = ["http://s2:8080", "http://s3:8080"])
    ∧ holderCount env0 "a.bin" "u1" (loneStore, []) = 1
    ∧ getUserFilesFromFirebase s4World.db "u1" = some [⟨"a.bin", "u1", ["s1", "s2", "s3"]⟩]
    ∧ gatherHolders (peersList env0 ++ [selfURL env0])
        (clusterListing env0 loneStore [] "a.bin" "u1") "a.bin" "u1" = ["http://s1:8080"]
    ∧ (syncEntry env0 s4World noFaults noFaults loneStore ["http://s2:8080", "http://s3:8080"]
        "a.bin" "u1" ["http://s1:8080"]).map (fun r => (r.holders, r.toDelete, r.events))
      = some (["http://s1:8080", "http://s2:8080", "http://s3:8080"], [],
          [SyncEvent.download "http://s1:8080" "u1" "a.bin",
           SyncEvent.push "http://s2:8080" "u1" "a.bin" true,
           SyncEvent.push "http://s3:8080" "u1" "a.bin" true])
    ∧ (∀ st : Store,
        syncEntry env0 s4World noFaults noFaults st ["http://s2:8080", "http://s3:8080"]
            "a.bin" "u1" ["http://s2:8080", "http://s3:8080", "http://s1:8080"]
          = some { store := st,
                   holders := ["http://s2:8080", "http://s3:8080", "http://s1:8080"],
                   toDelete := ["http://s3:8080"], events := [] })
    ∧ (∀ n, (reconcilerPasses env0 s4World ["http://s2:8080", "http://s3:8080"] "a.bin" "u1"
          (n + 1) (loneStore, [])).map
            (fun s => (s.2, holderCount env0 "a.bin" "u1" s,
              gatherHolders (peersList env0 ++ [selfURL env0])
                (clusterListing env0 s.1 s.2 "a.bin" "u1") "a.bin" "u1"))
        = some (["http://s2:8080", "http://s3:8080"], 3,
            ["http://s2:8080", "http://s3:8080", "http://s1:8080"]))
    ∧ ReplicationFactor = 2 := by
  refine ⟨?_, by decide, by decide, by decide, by decide, fun _ => rfl, ?_, rfl⟩
  · intro m
    exact (getHealthyFrom_all_ok allUp (fun _ => rfl) (peersList env0) m).trans (by decide)
  · intro n
    obtain ⟨st, hst, hc⟩ := reconcilerPasses_s1_over n
    rw [hst]
    simp only [Option.map_some', holderCount, hc, if_true,
      (reconcilerPass_s1_over st _ rfl hc).1]
    rfl

end GDrive
